import Mathlib

/-!
Verification of the DataStructures repository: a separate-chaining hash table
(`Hash Table/hash.cpp`) and an AVL tree (`AVL Tree/avl.c`).

The embedding is shallow: the hash table state is the `size_` counter together
with the bucket array `table_`, modelled as a list of chains (each chain a list
of stored integers, front of the list = head of the C++ singly linked chain).
Machine `int`s are modelled as `Int`; the C++ `%` operator on `int` is
truncated remainder, which is `Int.tmod`.
-/

namespace HashTable

/-- State of a `HashTable` object: the element counter `size_` and the bucket
vector `table_` (each slot the chain hanging off that slot, head first). -/
structure HT where
  size_ : Int
  table_ : List (List Int)
deriving Repr, DecidableEq

/-- `HashTable::hash`: truncated remainder `data % K` (C++ `%` on `int`),
with `K` added when the raw remainder is negative. -/
def hash (data K : Int) : Int :=
  if Int.tmod data K < 0 then Int.tmod data K + K else Int.tmod data K

/-- The private chain-level `HashTable::insert(int, std::vector<Node*>&)`:
push-front of `data` onto the chain at index `hash(data, table.size())`. -/
def pushFront (data : Int) (table : List (List Int)) : List (List Int) :=
  table.set (hash data (table.length : Int)).toNat
    (data :: table.getD (hash data (table.length : Int)).toNat [])

/-- `HashTable::resize`: a fresh table of double capacity; every node of every
old chain is detached front-first and pushed onto the front of its new chain,
computed with the doubled capacity. -/
def resize (table : List (List Int)) : List (List Int) :=
  table.foldl (fun acc chain => chain.foldl (fun a d => pushFront d a) acc)
    (List.replicate (2 * table.length) [])

/-- The load-factor test of `HashTable::insert`:
`get_balance_factor() > 0.5`, i.e. `(double)size_ / K > 0.5`, which over the
exactly-represented integers involved is `2 * size_ > K`. -/
def needsResize (s : HT) : Bool :=
  2 * s.size_ > (s.table_.length : Int)

/-- Public `HashTable::insert(int)`: resize when the pre-insert load factor
exceeds 0.5, then push-front into the (possibly resized) table and increment
`size_`. -/
def insert (s : HT) (data : Int) : HT :=
  if needsResize s then
    { size_ := s.size_ + 1, table_ := pushFront data (resize s.table_) }
  else
    { size_ := s.size_ + 1, table_ := pushFront data s.table_ }

/-- `HashTable::find`: linear scan of the chain at `hash(data, capacity)`. -/
def find (s : HT) (data : Int) : Bool :=
  (s.table_.getD (hash data (s.table_.length : Int)).toNat []).contains data

/-- Removal of the first occurrence of `data` from a chain, as performed by
`HashTable::erase`: `none` when `data` does not occur (the chain is left
untouched), otherwise the chain with exactly the first occurrence unlinked. -/
def removeFirst (data : Int) : List Int → Option (List Int)
  | [] => none
  | x :: xs => if x = data then some xs else (removeFirst data xs).map (x :: ·)

/-- `HashTable::erase(int)`: head-of-chain fast path then linear scan; remove
the first matching node and decrement `size_`, or do nothing when absent. -/
def erase (s : HT) (data : Int) : HT :=
  match removeFirst data (s.table_.getD (hash data (s.table_.length : Int)).toNat []) with
  | none => s
  | some c =>
    { size_ := s.size_ - 1,
      table_ := s.table_.set (hash data (s.table_.length : Int)).toNat c }

/-- The `HashTable(int cap)` constructor: `size_ = 0` and a bucket vector of
`std::max(cap, 10)` empty chains. -/
def mkTable (cap : Int) : HT :=
  { size_ := 0, table_ := List.replicate (max cap 10).toNat [] }

/-- `size()` accessor. -/
def size (s : HT) : Int := s.size_

/-- A public mutating operation on the table. -/
inductive HOp where
  | hins (v : Int)
  | hdel (v : Int)
deriving Repr, DecidableEq

/-- Apply one public operation. -/
def applyHOp (s : HT) : HOp → HT
  | .hins v => insert s v
  | .hdel v => erase s v

/-- Run a sequence of public operations from a freshly constructed table. -/
def runHT (cap : Int) (ops : List HOp) : HT :=
  ops.foldl applyHOp (mkTable cap)

/-- The states reachable from some constructor call by `insert`/`erase`. -/
def ReachableHT (s : HT) : Prop :=
  ∃ cap ops, s = runHT cap ops

/-- Total number of nodes across all chains. -/
def totalNodes (t : List (List Int)) : Nat :=
  (t.map List.length).sum

/-- Number of nodes holding value `w` across all chains. -/
def countNodes (w : Int) (t : List (List Int)) : Nat :=
  (t.map fun c => c.count w).sum

/-- Every chain holds only values that hash to its own index (with respect to
the current capacity). -/
def chainsOk (t : List (List Int)) : Prop :=
  ∀ i < t.length, ∀ v ∈ t.getD i [], (hash v (t.length : Int)).toNat = i

end HashTable

namespace AvlTree

/-- A tree node of `avl.c`: left child, value, cached height field, right
child; `leaf` is the null pointer. -/
inductive Tree where
  | leaf : Tree
  | node : Tree → Int → Nat → Tree → Tree
deriving Repr, DecidableEq

open Tree

/-- `height_node`: the cached height field, 0 for a null pointer. -/
def height_node : Tree → Nat
  | leaf => 0
  | node _ _ h _ => h

/-- `get_balance`: cached height of the left child minus that of the right. -/
def get_balance : Tree → Int
  | leaf => 0
  | node l _ _ r => (height_node l : Int) - (height_node r : Int)

/-- `update_height`: recompute the cached height field from the children. -/
def update_height : Tree → Tree
  | leaf => leaf
  | node l v _ r => node l v (1 + max (height_node l) (height_node r)) r

/-- The value stored at the root (`node->val`). The `leaf` case is a junk
value standing for the null-pointer dereference that the C code never
performs on reachable states. -/
def rootVal : Tree → Int
  | leaf => 0
  | node _ v _ _ => v

/-- `right_rotate`: the left child becomes the root; heights of the demoted
node and then of the new root are recomputed, in the order of the C code. On
a shape whose left child is null (where the C code would dereference null)
the input is returned unchanged. -/
def right_rotate : Tree → Tree
  | node (node ll lv lh lr) v h r =>
      update_height (node ll lv lh (update_height (node lr v h r)))
  | t => t

/-- `left_rotate`: mirror image of `right_rotate`. -/
def left_rotate : Tree → Tree
  | node l v h (node rl rv rh rr) =>
      update_height (node (update_height (node l v h rl)) rv rh rr)
  | t => t

/-- `find_successor`: the leftmost node of a subtree. -/
def find_successor : Tree → Tree
  | leaf => leaf
  | node leaf v h r => node leaf v h r
  | node (node a x hh b) _ _ _ => find_successor (node a x hh b)

/-- The four-case rebalancing block at the end of `insert_node`
(lines 83-98 of `avl.c`), with the guards comparing the inserted value
against the child's value exactly as in the source. -/
def insert_rebalance (t : Tree) (val : Int) : Tree :=
  match t with
  | leaf => leaf
  | node l v h r =>
    if get_balance (node l v h r) > 1 ∧ val < rootVal l then
      right_rotate (node l v h r)
    else if get_balance (node l v h r) < -1 ∧ rootVal r < val then
      left_rotate (node l v h r)
    else if get_balance (node l v h r) > 1 ∧ rootVal l < val then
      right_rotate (node (left_rotate l) v h r)
    else if get_balance (node l v h r) < -1 ∧ val < rootVal r then
      left_rotate (node l v h (right_rotate r))
    else node l v h r

/-- `insert_node`: BST descent, new leaf with height 1, duplicate insert is a
no-op, then height update and rebalancing on the way out. -/
def insert_node : Tree → Int → Tree
  | leaf, val => node leaf val 1 leaf
  | node l v h r, val =>
    if val < v then
      insert_rebalance (update_height (node (insert_node l val) v h r)) val
    else if v < val then
      insert_rebalance (update_height (node l v h (insert_node r val))) val
    else node l v h r

/-- The four-case rebalancing block at the end of `delete_node`
(lines 128-143 of `avl.c`), with the guards driven by the child's balance
factor. -/
def delete_rebalance (t : Tree) : Tree :=
  match t with
  | leaf => leaf
  | node l v h r =>
    if get_balance (node l v h r) > 1 ∧ get_balance l ≥ 0 then
      right_rotate (node l v h r)
    else if get_balance (node l v h r) < -1 ∧ get_balance r ≤ 0 then
      left_rotate (node l v h r)
    else if get_balance (node l v h r) > 1 ∧ get_balance l < 0 then
      right_rotate (node (left_rotate l) v h r)
    else if get_balance (node l v h r) < -1 ∧ get_balance r > 0 then
      left_rotate (node l v h (right_rotate r))
    else node l v h r

/-- `delete_node`: BST deletion (a node with a missing child is replaced by
the other child with no further rebalancing at that node, exactly as in the
source; a node with two children receives its in-order successor's value,
which is then deleted from the right subtree), followed by height update and
balance-factor-driven rebalancing. -/
def delete_node : Tree → Int → Tree
  | leaf, _ => leaf
  | node l v h r, val =>
    if val < v then
      delete_rebalance (update_height (node (delete_node l val) v h r))
    else if v < val then
      delete_rebalance (update_height (node l v h (delete_node r val)))
    else
      match l, r with
      | leaf, _ => r
      | _, leaf => l
      | _, _ =>
        delete_rebalance (update_height
          (node l (rootVal (find_successor r)) h
            (delete_node r (rootVal (find_successor r)))))

/-- `inorder`: the sequence of values passed to the visitor. -/
def inorder : Tree → List Int
  | leaf => []
  | node l v _ r => inorder l ++ v :: inorder r

/-- `preorder` traversal sequence. -/
def preorder : Tree → List Int
  | leaf => []
  | node l v _ r => v :: (preorder l ++ preorder r)

/-- `postorder` traversal sequence. -/
def postorder : Tree → List Int
  | leaf => []
  | node l v _ r => postorder l ++ postorder r ++ [v]

/-- Actual height of a tree, ignoring the cached fields. -/
def realH : Tree → Nat
  | leaf => 0
  | node l _ _ r => 1 + max (realH l) (realH r)

/-- Every cached height field is consistent with the children's fields. -/
def heightOk : Tree → Bool
  | leaf => true
  | node l _ h r =>
    heightOk l && heightOk r && decide (h = 1 + max (height_node l) (height_node r))

/-- The cached height field equals `1 + max` of the children's actual
heights, at every node (an absent child contributing 0). -/
def heightCorrect : Tree → Bool
  | leaf => true
  | node l _ h r =>
    heightCorrect l && heightCorrect r && decide (h = 1 + max (realH l) (realH r))

/-- AVL balance, in terms of actual heights, at every node. -/
def balanced : Tree → Bool
  | leaf => true
  | node l _ _ r =>
    decide (((realH l : Int) - (realH r : Int)).natAbs ≤ 1) && balanced l && balanced r

/-- Correct cached heights together with AVL balance. -/
def avl (t : Tree) : Bool := heightOk t && balanced t

/-- All values in the tree satisfy `p`. -/
def allB (p : Int → Bool) : Tree → Bool
  | leaf => true
  | node l v _ r => p v && allB p l && allB p r

/-- Strict BST ordering: at every node, the left subtree's values are
strictly below the node's value and the right subtree's strictly above. -/
def bstB : Tree → Bool
  | leaf => true
  | node l v _ r =>
    allB (fun x => decide (x < v)) l && allB (fun x => decide (v < x)) r &&
      bstB l && bstB r

/-- Balance factor in terms of actual heights. -/
def balR : Tree → Int
  | leaf => 0
  | node l _ _ r => (realH l : Int) - (realH r : Int)

/-- Insertion of a value into a sorted list of distinct values, skipping a
value already present; the list-level counterpart of `insert_node`. -/
def linsert (val : Int) : List Int → List Int
  | [] => [val]
  | x :: xs =>
    if val < x then val :: x :: xs
    else if x < val then x :: linsert val xs
    else x :: xs

/-- Removal of the first occurrence of a value from a list; the list-level
counterpart of `delete_node`. -/
def ldelete (val : Int) : List Int → List Int
  | [] => []
  | x :: xs => if x = val then xs else x :: ldelete val xs

/-- A public mutating operation on the tree. -/
inductive TOp where
  | tins (v : Int)
  | tdel (v : Int)
deriving Repr, DecidableEq

/-- Apply one operation to the current root. -/
def applyTOp (t : Tree) : TOp → Tree
  | .tins v => insert_node t v
  | .tdel v => delete_node t v

/-- Run a sequence of operations from the empty tree. -/
def runTree (ops : List TOp) : Tree :=
  ops.foldl applyTOp leaf

/-- The tree states reachable from the empty tree. -/
def ReachableTree (t : Tree) : Prop :=
  ∃ ops, t = runTree ops

end AvlTree

namespace HashTable

/- ### Range of the hash function -/

theorem tmod_bounds (a b : Int) (hb : 0 < b) :
    -b < Int.tmod a b ∧ Int.tmod a b < b := by
  refine ⟨?_, Int.tmod_lt_of_pos a hb⟩
  match a, b with
  | Int.ofNat m, Int.ofNat n =>
    have : 0 ≤ Int.tmod (Int.ofNat m) (Int.ofNat n) :=
      Int.tmod_nonneg _ (by simp [Int.ofNat_eq_coe])
    omega
  | Int.negSucc m, Int.ofNat n =>
    have hn : 0 < n := by
      simp only [Int.ofNat_eq_coe] at hb
      exact_mod_cast hb
    have h1 : Int.tmod (Int.negSucc m) (Int.ofNat n) = -(Int.ofNat ((m + 1) % n)) := rfl
    rw [h1]
    have h3 : (m + 1) % n < n := Nat.mod_lt (m + 1) hn
    refine neg_lt_neg ?_
    simp only [Int.ofNat_eq_coe]
    exact_mod_cast h3

theorem hash_range (d K : Int) (hK : 1 ≤ K) : 0 ≤ hash d K ∧ hash d K < K := by
  have hb := tmod_bounds d K (by omega)
  unfold hash
  split <;> omega

/- ### Chain and bucket-array bookkeeping lemmas -/

theorem hashIdx_lt (d : Int) (n : Nat) (hn : 0 < n) :
    (hash d (n : Int)).toNat < n := by
  have h := hash_range d (n : Int) (by exact_mod_cast hn)
  omega

theorem getD_set_self {t : List (List Int)} {i : Nat} {c : List Int}
    (h : i < t.length) : (t.set i c).getD i [] = c := by
  simp [List.getD_eq_getElem?_getD, List.getElem?_set_self h]

theorem getD_set_ne {t : List (List Int)} {i j : Nat} {c : List Int}
    (h : i ≠ j) : (t.set i c).getD j [] = t.getD j [] := by
  simp [List.getD_eq_getElem?_getD, List.getElem?_set_ne h]

theorem getD_replicate {n i : Nat} :
    (List.replicate n ([] : List Int)).getD i [] = [] := by
  induction n generalizing i with
  | zero => simp [List.getD]
  | succ n ih =>
    cases i with
    | zero => simp [List.replicate, List.getD]
    | succ i => simp [List.replicate, List.getD]

theorem sum_map_set (f : List Int → Nat) (t : List (List Int)) (i : Nat)
    (c : List Int) (h : i < t.length) :
    ((t.set i c).map f).sum + f (t.getD i []) = (t.map f).sum + f c := by
  induction t generalizing i with
  | nil => simp at h
  | cons x xs ih =>
    cases i with
    | zero => simp [List.getD]; omega
    | succ i =>
      have := ih i (by simpa using h)
      simp only [List.set, List.map, List.sum_cons, List.getD_cons_succ]
      omega

/- `pushFront` preserves the capacity and adds exactly one node. -/

theorem length_pushFront (d : Int) (t : List (List Int)) :
    (pushFront d t).length = t.length := by
  simp [pushFront]

theorem totalNodes_pushFront (d : Int) (t : List (List Int)) (ht : 0 < t.length) :
    totalNodes (pushFront d t) = totalNodes t + 1 := by
  have hi := hashIdx_lt d t.length ht
  have := sum_map_set List.length t (hash d (t.length : Int)).toNat
    (d :: t.getD (hash d (t.length : Int)).toNat []) hi
  simp only [totalNodes, pushFront, List.length_cons] at *
  omega

theorem countNodes_pushFront (w d : Int) (t : List (List Int)) (ht : 0 < t.length) :
    countNodes w (pushFront d t) = countNodes w t + if w = d then 1 else 0 := by
  have hi := hashIdx_lt d t.length ht
  have hs := sum_map_set (fun c => c.count w) t (hash d (t.length : Int)).toNat
    (d :: t.getD (hash d (t.length : Int)).toNat []) hi
  simp only [countNodes, pushFront] at *
  rcases Decidable.em (w = d) with h | h
  · subst h
    rw [List.count_cons_self] at hs
    have hite : (if w = w then 1 else 0) = 1 := if_pos rfl
    rw [hite]
    omega
  · rw [List.count_cons_of_ne h] at hs
    simp only [if_neg h]
    omega

theorem chainsOk_pushFront (d : Int) (t : List (List Int)) (ht : 0 < t.length)
    (h : chainsOk t) : chainsOk (pushFront d t) := by
  have hlen : (pushFront d t).length = t.length := length_pushFront d t
  intro i hi v hv
  rw [hlen] at hi
  rw [hlen]
  by_cases hij : (hash d (t.length : Int)).toNat = i
  · subst hij
    rw [pushFront, getD_set_self (hashIdx_lt d t.length ht)] at hv
    rcases List.mem_cons.mp hv with rfl | hv
    · rfl
    · exact h _ (hashIdx_lt d t.length ht) v hv
  · rw [pushFront, getD_set_ne hij] at hv
    exact h i hi v hv

/- Folding `pushFront` over a chain (the inner loop of `resize`). -/

theorem length_foldl_pushFront (chain : List Int) (acc : List (List Int)) :
    (chain.foldl (fun a d => pushFront d a) acc).length = acc.length := by
  induction chain generalizing acc with
  | nil => rfl
  | cons x xs ih => rw [List.foldl_cons, ih, length_pushFront]

theorem totalNodes_foldl_pushFront (chain : List Int) (acc : List (List Int))
    (ha : 0 < acc.length) :
    totalNodes (chain.foldl (fun a d => pushFront d a) acc) =
      totalNodes acc + chain.length := by
  induction chain generalizing acc with
  | nil => rfl
  | cons x xs ih =>
    rw [List.foldl_cons, ih _ (by rw [length_pushFront]; exact ha),
      totalNodes_pushFront _ _ ha, List.length_cons]
    omega

theorem countNodes_foldl_pushFront (w : Int) (chain : List Int)
    (acc : List (List Int)) (ha : 0 < acc.length) :
    countNodes w (chain.foldl (fun a d => pushFront d a) acc) =
      countNodes w acc + chain.count w := by
  induction chain generalizing acc with
  | nil => rfl
  | cons x xs ih =>
    rw [List.foldl_cons, ih _ (by rw [length_pushFront]; exact ha),
      countNodes_pushFront w x acc ha, List.count_cons]
    rcases Decidable.em (w = x) with h | h
    · subst h
      have e1 : (if (w == w) = true then (1 : Nat) else 0) = 1 := by simp
      have e2 : (if w = w then (1 : Nat) else 0) = 1 := if_pos rfl
      rw [e1, e2]
      omega
    · have e1 : (x == w) = false := beq_eq_false_iff_ne.mpr fun hh => h hh.symm
      rw [e1]
      have e2 : (if (false : Bool) = true then (1 : Nat) else 0) = 0 := rfl
      rw [e2]
      have e3 : (if w = x then (1 : Nat) else 0) = 0 := if_neg h
      rw [e3]
      omega

theorem chainsOk_foldl_pushFront (chain : List Int) (acc : List (List Int))
    (ha : 0 < acc.length) (h : chainsOk acc) :
    chainsOk (chain.foldl (fun a d => pushFront d a) acc) := by
  induction chain generalizing acc with
  | nil => exact h
  | cons x xs ih =>
    rw [List.foldl_cons]
    exact ih _ (by rw [length_pushFront]; exact ha) (chainsOk_pushFront x acc ha h)

/- The outer loop of `resize`, folding over the old buckets. -/

theorem length_foldl_buckets (bs : List (List Int)) (acc : List (List Int)) :
    (bs.foldl (fun acc chain => chain.foldl (fun a d => pushFront d a) acc) acc).length
      = acc.length := by
  induction bs generalizing acc with
  | nil => rfl
  | cons c cs ih => rw [List.foldl_cons, ih, length_foldl_pushFront]

theorem totalNodes_foldl_buckets (bs : List (List Int)) (acc : List (List Int))
    (ha : 0 < acc.length) :
    totalNodes (bs.foldl (fun acc chain => chain.foldl (fun a d => pushFront d a) acc) acc)
      = totalNodes acc + totalNodes bs := by
  induction bs generalizing acc with
  | nil => simp [totalNodes]
  | cons c cs ih =>
    rw [List.foldl_cons, ih _ (by rw [length_foldl_pushFront]; exact ha),
      totalNodes_foldl_pushFront c acc ha]
    simp only [totalNodes, List.map_cons, List.sum_cons]
    omega

theorem countNodes_foldl_buckets (w : Int) (bs : List (List Int))
    (acc : List (List Int)) (ha : 0 < acc.length) :
    countNodes w (bs.foldl (fun acc chain => chain.foldl (fun a d => pushFront d a) acc) acc)
      = countNodes w acc + countNodes w bs := by
  induction bs generalizing acc with
  | nil => simp [countNodes]
  | cons c cs ih =>
    rw [List.foldl_cons, ih _ (by rw [length_foldl_pushFront]; exact ha),
      countNodes_foldl_pushFront w c acc ha]
    simp only [countNodes, List.map_cons, List.sum_cons]
    omega

theorem chainsOk_foldl_buckets (bs : List (List Int)) (acc : List (List Int))
    (ha : 0 < acc.length) (h : chainsOk acc) :
    chainsOk (bs.foldl (fun acc chain => chain.foldl (fun a d => pushFront d a) acc) acc) := by
  induction bs generalizing acc with
  | nil => exact h
  | cons c cs ih =>
    rw [List.foldl_cons]
    exact ih _ (by rw [length_foldl_pushFront]; exact ha)
      (chainsOk_foldl_pushFront c acc ha h)

/- `resize` doubles the capacity, keeps every node, and re-hashes
consistently. -/

theorem length_resize (t : List (List Int)) :
    (resize t).length = 2 * t.length := by
  rw [resize, length_foldl_buckets, List.length_replicate]

theorem totalNodes_resize (t : List (List Int)) (ht : 0 < t.length) :
    totalNodes (resize t) = totalNodes t := by
  rw [resize, totalNodes_foldl_buckets t _ (by simp; omega)]
  have : totalNodes (List.replicate (2 * t.length) ([] : List Int)) = 0 := by
    simp [totalNodes, List.map_replicate]
  omega

theorem countNodes_resize (w : Int) (t : List (List Int)) (ht : 0 < t.length) :
    countNodes w (resize t) = countNodes w t := by
  rw [resize, countNodes_foldl_buckets w t _ (by simp; omega)]
  have : countNodes w (List.replicate (2 * t.length) ([] : List Int)) = 0 := by
    simp [countNodes, List.map_replicate]
  omega

theorem chainsOk_resize (t : List (List Int)) (ht : 0 < t.length) :
    chainsOk (resize t) := by
  rw [resize]
  refine chainsOk_foldl_buckets t _ (by simp; omega) ?_
  intro i hi v hv
  rw [getD_replicate] at hv
  cases hv

/- ### First-occurrence removal -/

theorem removeFirst_eq_none {d : Int} {l : List Int} :
    removeFirst d l = none ↔ d ∉ l := by
  induction l with
  | nil => simp [removeFirst]
  | cons x xs ih =>
    rw [removeFirst]
    by_cases h : x = d
    · subst h
      simp
    · rw [if_neg h]
      constructor
      · intro hn hc
        rcases List.mem_cons.mp hc with hc | hc
        · exact h hc.symm
        · rcases ho : removeFirst d xs with _ | c
          · exact (ih.mp ho) hc
          · rw [ho] at hn
            exact absurd hn (by simp)
      · intro hn
        rw [ih.mpr fun hc => hn (List.mem_cons_of_mem _ hc)]
        rfl

theorem removeFirst_some_spec {d : Int} {l c : List Int}
    (h : removeFirst d l = some c) :
    ∃ l1 l2, l = l1 ++ d :: l2 ∧ d ∉ l1 ∧ c = l1 ++ l2 := by
  induction l generalizing c with
  | nil => simp [removeFirst] at h
  | cons x xs ih =>
    rw [removeFirst] at h
    by_cases hx : x = d
    · subst hx
      rw [if_pos rfl] at h
      refine ⟨[], xs, by simp, by simp, ?_⟩
      simpa using (Option.some_inj.mp h).symm
    · rw [if_neg hx] at h
      rcases Option.map_eq_some.mp h with ⟨c', hc', rfl⟩
      rcases ih hc' with ⟨l1, l2, hl, hd, hc⟩
      exact ⟨x :: l1, l2, by simp [hl], by
        simp only [List.mem_cons, not_or]
        exact ⟨fun hh => hx hh.symm, hd⟩, by simp [hc]⟩

theorem removeFirst_isSome {d : Int} {l : List Int} (h : d ∈ l) :
    ∃ c, removeFirst d l = some c := by
  rcases ho : removeFirst d l with _ | c
  · exact absurd h (removeFirst_eq_none.mp ho)
  · exact ⟨c, rfl⟩

theorem removeFirst_length {d : Int} {l c : List Int}
    (h : removeFirst d l = some c) : c.length + 1 = l.length := by
  rcases removeFirst_some_spec h with ⟨l1, l2, rfl, _, rfl⟩
  simp
  omega

theorem removeFirst_count {d : Int} {l c : List Int}
    (h : removeFirst d l = some c) (w : Int) :
    c.count w + (if w = d then 1 else 0) = l.count w := by
  rcases removeFirst_some_spec h with ⟨l1, l2, rfl, _, rfl⟩
  rcases Decidable.em (w = d) with hw | hw
  · subst hw
    simp [List.count_append, List.count_cons_self]
    omega
  · simp [List.count_append, List.count_cons_of_ne hw, if_neg hw]

theorem removeFirst_subset {d : Int} {l c : List Int}
    (h : removeFirst d l = some c) : ∀ x ∈ c, x ∈ l := by
  rcases removeFirst_some_spec h with ⟨l1, l2, rfl, _, rfl⟩
  intro x hx
  rcases List.mem_append.mp hx with hx | hx
  · exact List.mem_append.mpr (Or.inl hx)
  · exact List.mem_append.mpr (Or.inr (List.mem_cons_of_mem _ hx))

theorem getD_length_le (t : List (List Int)) (i : Nat) :
    (t.getD i []).length ≤ totalNodes t := by
  induction t generalizing i with
  | nil => simp [List.getD, totalNodes]
  | cons x xs ih =>
    cases i with
    | zero => simp [totalNodes, List.getD]
    | succ i =>
      have := ih i
      simp only [totalNodes, List.map_cons, List.sum_cons, List.getD_cons_succ] at *
      omega

/- ### The reachable-state invariant of the table -/

/-- Invariant of every reachable `HashTable` state: capacity at least 10,
`size_` equal to the total node count, and every node in the chain its value
hashes to. -/
def goodHT (s : HT) : Prop :=
  10 ≤ s.table_.length ∧ s.size_ = (totalNodes s.table_ : Int) ∧ chainsOk s.table_

theorem mkTable_good (cap : Int) : goodHT (mkTable cap) := by
  refine ⟨?_, ?_, ?_⟩
  · have := le_max_right cap 10
    simp only [mkTable, List.length_replicate]
    omega
  · simp [mkTable, totalNodes, List.map_replicate]
  · intro i hi v hv
    rw [mkTable] at hv
    simp only at hv
    rw [getD_replicate] at hv
    cases hv

theorem insert_good {s : HT} (hs : goodHT s) (v : Int) : goodHT (insert s v) := by
  obtain ⟨hlen, hsize, hok⟩ := hs
  rw [insert]
  rcases hR : needsResize s with _ | _
  · rw [if_neg Bool.false_ne_true]
    have hpos : 0 < s.table_.length := by omega
    refine ⟨?_, ?_, ?_⟩
    · simp only [length_pushFront]
      exact hlen
    · simp only [totalNodes_pushFront v s.table_ hpos]
      push_cast
      omega
    · exact chainsOk_pushFront v s.table_ hpos hok
  · rw [if_pos rfl]
    have hpos : 0 < s.table_.length := by omega
    have hrl : (resize s.table_).length = 2 * s.table_.length := length_resize s.table_
    have hrpos : 0 < (resize s.table_).length := by omega
    refine ⟨?_, ?_, ?_⟩
    · simp only [length_pushFront, hrl]
      omega
    · simp only [totalNodes_pushFront v _ hrpos, totalNodes_resize s.table_ hpos]
      push_cast
      omega
    · exact chainsOk_pushFront v _ hrpos (chainsOk_resize s.table_ hpos)

theorem erase_good {s : HT} (hs : goodHT s) (v : Int) : goodHT (erase s v) := by
  obtain ⟨hlen, hsize, hok⟩ := hs
  rw [erase]
  rcases hrf : removeFirst v (s.table_.getD (hash v (s.table_.length : Int)).toNat []) with
    _ | c
  · exact ⟨hlen, hsize, hok⟩
  · have hpos : 0 < s.table_.length := by omega
    have hi := hashIdx_lt v s.table_.length hpos
    have hsum := sum_map_set List.length s.table_ (hash v (s.table_.length : Int)).toNat c hi
    have hcl := removeFirst_length hrf
    refine ⟨?_, ?_, ?_⟩
    · simp only [List.length_set]
      exact hlen
    · have hchainle := getD_length_le s.table_ (hash v (s.table_.length : Int)).toNat
      simp only [totalNodes] at hsum hsize hchainle ⊢
      omega
    · intro i hif w hw
      simp only [List.length_set] at hif ⊢
      by_cases hij : (hash v (s.table_.length : Int)).toNat = i
      · subst hij
        rw [getD_set_self hi] at hw
        exact hok _ hi w (removeFirst_subset hrf w hw)
      · rw [getD_set_ne hij] at hw
        exact hok i hif w hw

theorem runHT_good (cap : Int) (ops : List HOp) : goodHT (runHT cap ops) := by
  rw [runHT]
  have aux : ∀ (l : List HOp) (s : HT), goodHT s → goodHT (l.foldl applyHOp s) := by
    intro l
    induction l with
    | nil => exact fun s hs => hs
    | cons o os ih =>
      intro s hs
      rw [List.foldl_cons]
      refine ih _ ?_
      cases o with
      | hins v => exact insert_good hs v
      | hdel v => exact erase_good hs v
  exact aux ops (mkTable cap) (mkTable_good cap)

theorem reachable_good {s : HT} (hs : ReachableHT s) : goodHT s := by
  rcases hs with ⟨cap, ops, rfl⟩
  exact runHT_good cap ops

theorem getD_eq_getElem (t : List (List Int)) (i : Nat) (h : i < t.length) :
    t.getD i [] = t[i] := by
  simp [List.getD_eq_getElem?_getD, List.getElem?_eq_getElem h]

theorem removeFirst_erase {d : Int} {l c : List Int}
    (h : removeFirst d l = some c) : c = l.erase d := by
  rcases removeFirst_some_spec h with ⟨l1, l2, rfl, hnm, rfl⟩
  rw [List.erase_append_right _ (by simpa using hnm), List.erase_cons_head]

/- ### Claim theorems for the hash table -/

/-- Claim C7: for every integer value and every capacity `K ≥ 1`, `hash`
returns a result in `[0, K)`, obtained by adding `K` to the raw truncated
remainder exactly when that remainder is negative. -/
theorem claim_C7 (v K : Int) (hK : 1 ≤ K) :
    0 ≤ hash v K ∧ hash v K < K ∧
      (Int.tmod v K < 0 → hash v K = Int.tmod v K + K) ∧
      (0 ≤ Int.tmod v K → hash v K = Int.tmod v K) := by
  have h := hash_range v K hK
  refine ⟨h.1, h.2, fun hneg => ?_, fun hpos => ?_⟩
  · rw [hash, if_pos hneg]
  · rw [hash, if_neg (by omega)]

/-- Witness for C7 at the negative input `-12` with capacity 10 (the table's
minimum capacity), as exercised by the negative-values test in `main`. -/
theorem claim_C7_witness :
    0 ≤ hash (-12) 10 ∧ hash (-12) 10 < 10 ∧
      (Int.tmod (-12) 10 < 0 → hash (-12) 10 = Int.tmod (-12) 10 + 10) ∧
      (0 ≤ Int.tmod (-12) 10 → hash (-12) 10 = Int.tmod (-12) 10) :=
  claim_C7 (-12) 10 (by decide)

/-- Claim C6: in every reachable table state, `size()` equals the total
number of nodes across all bucket chains, duplicates counted. -/
theorem claim_C6 (s : HT) (hs : ReachableHT s) :
    size s = (totalNodes s.table_ : Int) :=
  (reachable_good hs).2.1

/-- Witness for C6: a run with duplicate inserts and an erase. -/
theorem claim_C6_witness :
    size (runHT 10 [HOp.hins 1, HOp.hins 1, HOp.hins 5, HOp.hdel 1]) =
      (totalNodes (runHT 10 [HOp.hins 1, HOp.hins 1, HOp.hins 5, HOp.hdel 1]).table_ : Int) :=
  claim_C6 _ ⟨10, [HOp.hins 1, HOp.hins 1, HOp.hins 5, HOp.hdel 1], rfl⟩

/-- Claim C9: on every reachable state, `erase v` removes exactly the first
node with value `v` in `v`'s chain (the chain becomes `chain.erase v`) and
decrements `size_` by one — so exactly one occurrence disappears even when
duplicates exist — and is a no-op when `v` is absent from its chain. -/
theorem claim_C9 (s : HT) (v : Int) (hs : ReachableHT s) :
    (v ∉ s.table_.getD (hash v (s.table_.length : Int)).toNat [] → erase s v = s) ∧
    (v ∈ s.table_.getD (hash v (s.table_.length : Int)).toNat [] →
      (erase s v).table_ =
          s.table_.set (hash v (s.table_.length : Int)).toNat
            ((s.table_.getD (hash v (s.table_.length : Int)).toNat []).erase v) ∧
        (erase s v).size_ = s.size_ - 1 ∧
        countNodes v (erase s v).table_ + 1 = countNodes v s.table_) := by
  obtain ⟨hlen, hsize, hok⟩ := reachable_good hs
  have hpos : 0 < s.table_.length := by omega
  have hi := hashIdx_lt v s.table_.length hpos
  constructor
  · intro habs
    rw [erase, removeFirst_eq_none.mpr habs]
  · intro hmem
    rcases removeFirst_isSome hmem with ⟨c, hc⟩
    have hce := removeFirst_erase hc
    have hcount := removeFirst_count hc v
    have hsum := sum_map_set (fun ch => ch.count v) s.table_
      (hash v (s.table_.length : Int)).toNat c hi
    beta_reduce at hsum
    rw [erase, hc]
    refine ⟨by rw [← hce], rfl, ?_⟩
    simp only [countNodes]
    have hite : (if v = v then 1 else 0) = 1 := if_pos rfl
    rw [hite] at hcount
    omega

/-- Witness for C9: erasing value 1 from a run holding two copies of 1. -/
theorem claim_C9_witness :
    (1 ∉ (runHT 10 [HOp.hins 1, HOp.hins 1, HOp.hins 5]).table_.getD
        (hash 1 ((runHT 10 [HOp.hins 1, HOp.hins 1, HOp.hins 5]).table_.length : Int)).toNat [] →
      erase (runHT 10 [HOp.hins 1, HOp.hins 1, HOp.hins 5]) 1 =
        runHT 10 [HOp.hins 1, HOp.hins 1, HOp.hins 5]) ∧
    (1 ∈ (runHT 10 [HOp.hins 1, HOp.hins 1, HOp.hins 5]).table_.getD
        (hash 1 ((runHT 10 [HOp.hins 1, HOp.hins 1, HOp.hins 5]).table_.length : Int)).toNat [] →
      (erase (runHT 10 [HOp.hins 1, HOp.hins 1, HOp.hins 5]) 1).table_ =
          (runHT 10 [HOp.hins 1, HOp.hins 1, HOp.hins 5]).table_.set
            (hash 1 ((runHT 10 [HOp.hins 1, HOp.hins 1, HOp.hins 5]).table_.length : Int)).toNat
            (((runHT 10 [HOp.hins 1, HOp.hins 1, HOp.hins 5]).table_.getD
              (hash 1 ((runHT 10 [HOp.hins 1, HOp.hins 1, HOp.hins 5]).table_.length : Int)).toNat
              []).erase 1) ∧
        (erase (runHT 10 [HOp.hins 1, HOp.hins 1, HOp.hins 5]) 1).size_ =
          (runHT 10 [HOp.hins 1, HOp.hins 1, HOp.hins 5]).size_ - 1 ∧
        countNodes 1 (erase (runHT 10 [HOp.hins 1, HOp.hins 1, HOp.hins 5]) 1).table_ + 1 =
          countNodes 1 (runHT 10 [HOp.hins 1, HOp.hins 1, HOp.hins 5]).table_) :=
  claim_C9 _ 1 ⟨10, [HOp.hins 1, HOp.hins 1, HOp.hins 5], rfl⟩

/-- Claim C10: on every reachable state, `find v` succeeds immediately after
`insert v` (also when that insert resized), and any value `w` stored in some
chain is found by hashing `w` against the current capacity. -/
theorem claim_C10 (s : HT) (v w : Int) (hs : ReachableHT s)
    (hw : ∃ c ∈ s.table_, w ∈ c) :
    find (insert s v) v = true ∧ find s w = true := by
  obtain ⟨hlen, hsize, hok⟩ := reachable_good hs
  have hpos : 0 < s.table_.length := by omega
  constructor
  · have key : ∀ t : List (List Int), 0 < t.length →
        (pushFront v t).getD (hash v ((pushFront v t).length : Int)).toNat [] =
          v :: t.getD (hash v (t.length : Int)).toNat [] := by
      intro t ht
      rw [length_pushFront, pushFront, getD_set_self (hashIdx_lt v t.length ht)]
    rw [insert]
    rcases hR : needsResize s with _ | _
    · rw [if_neg Bool.false_ne_true]
      show find ⟨s.size_ + 1, pushFront v s.table_⟩ v = true
      rw [find]
      simp only
      rw [key s.table_ hpos]
      simp
    · rw [if_pos rfl]
      show find ⟨s.size_ + 1, pushFront v (resize s.table_)⟩ v = true
      rw [find]
      simp only
      rw [key (resize s.table_) (by rw [length_resize]; omega)]
      simp
  · rcases hw with ⟨c, hc, hwc⟩
    rcases List.getElem_of_mem hc with ⟨i, hilt, hieq⟩
    have hgd : s.table_.getD i [] = c := by rw [getD_eq_getElem s.table_ i hilt, hieq]
    have hidx := hok i hilt w (by rw [hgd]; exact hwc)
    rw [find, hidx, hgd]
    exact List.elem_eq_true_of_mem hwc

/-- Witness for C10 on a concrete reachable state holding 7. -/
theorem claim_C10_witness :
    find (insert (runHT 10 [HOp.hins 7]) 15) 15 = true ∧
      find (runHT 10 [HOp.hins 7]) 7 = true :=
  claim_C10 _ 15 7 ⟨10, [HOp.hins 7], rfl⟩ (by decide)

/-- Claim C4: on every reachable state, an insert doubles the capacity if and
only if the pre-insert ratio `size / capacity` strictly exceeds 1/2; the
number of nodes holding any value `w` is preserved by the full rehash and the
new value is then added, so the post-insert load factor may exceed 1/2. -/
theorem claim_C4 (s : HT) (v w : Int) (hs : ReachableHT s) :
    ((insert s v).table_.length = 2 * s.table_.length ↔
        2 * s.size_ > (s.table_.length : Int)) ∧
      countNodes w (insert s v).table_ =
        countNodes w s.table_ + (if w = v then 1 else 0) ∧
      size (insert s v) = size s + 1 := by
  obtain ⟨hlen, hsize, hok⟩ := reachable_good hs
  have hpos : 0 < s.table_.length := by omega
  rw [insert]
  rcases hR : needsResize s with _ | _
  · rw [if_neg Bool.false_ne_true]
    have hcond : ¬(2 * s.size_ > (s.table_.length : Int)) := by
      rw [needsResize] at hR
      simpa using hR
    refine ⟨?_, ?_, rfl⟩
    · simp only [length_pushFront]
      constructor
      · intro h
        omega
      · intro h
        exact absurd h hcond
    · exact countNodes_pushFront w v s.table_ hpos
  · rw [if_pos rfl]
    have hcond : 2 * s.size_ > (s.table_.length : Int) := by
      rw [needsResize] at hR
      simpa using hR
    have hrpos : 0 < (resize s.table_).length := by rw [length_resize]; omega
    refine ⟨?_, ?_, rfl⟩
    · simp only [length_pushFront, length_resize]
      exact iff_of_true (by trivial) hcond
    · rw [countNodes_pushFront w v _ hrpos, countNodes_resize w s.table_ hpos]

/-- Witness for C4 at the boundary state of size 5, capacity 10. -/
theorem claim_C4_witness :
    ((insert (runHT 10 [HOp.hins 1, HOp.hins 2, HOp.hins 3, HOp.hins 4, HOp.hins 5]) 6).table_.length =
        2 * (runHT 10 [HOp.hins 1, HOp.hins 2, HOp.hins 3, HOp.hins 4, HOp.hins 5]).table_.length ↔
        2 * (runHT 10 [HOp.hins 1, HOp.hins 2, HOp.hins 3, HOp.hins 4, HOp.hins 5]).size_ >
          ((runHT 10 [HOp.hins 1, HOp.hins 2, HOp.hins 3, HOp.hins 4, HOp.hins 5]).table_.length : Int)) ∧
      countNodes 6 (insert (runHT 10 [HOp.hins 1, HOp.hins 2, HOp.hins 3, HOp.hins 4, HOp.hins 5]) 6).table_ =
        countNodes 6 (runHT 10 [HOp.hins 1, HOp.hins 2, HOp.hins 3, HOp.hins 4, HOp.hins 5]).table_ +
          (if (6 : Int) = 6 then 1 else 0) ∧
      size (insert (runHT 10 [HOp.hins 1, HOp.hins 2, HOp.hins 3, HOp.hins 4, HOp.hins 5]) 6) =
        size (runHT 10 [HOp.hins 1, HOp.hins 2, HOp.hins 3, HOp.hins 4, HOp.hins 5]) + 1 :=
  claim_C4 _ 6 6 ⟨10, [HOp.hins 1, HOp.hins 2, HOp.hins 3, HOp.hins 4, HOp.hins 5], rfl⟩

/-- Counterexample to claim C1 as stated: in the reachable state with 5
elements and capacity 10, inserting a sixth element would push the load
factor to 6/10 > 0.5, yet the table does not resize — the capacity stays 10
— because the code checks only the pre-insert ratio 5/10, which does not
exceed 0.5. -/
theorem claim_C1_counterexample :
    2 * ((runHT 10 [HOp.hins 1, HOp.hins 2, HOp.hins 3, HOp.hins 4, HOp.hins 5]).size_ + 1) >
        ((runHT 10 [HOp.hins 1, HOp.hins 2, HOp.hins 3, HOp.hins 4, HOp.hins 5]).table_.length : Int) ∧
      (insert (runHT 10 [HOp.hins 1, HOp.hins 2, HOp.hins 3, HOp.hins 4, HOp.hins 5]) 6).table_.length =
        (runHT 10 [HOp.hins 1, HOp.hins 2, HOp.hins 3, HOp.hins 4, HOp.hins 5]).table_.length := by
  decide

/-- Amended claim C1: the table resizes (doubling capacity, keeping every
node through the rehash, before the new value is inserted) exactly when the
pre-insert load factor strictly exceeds 0.5; when the pre-insert load factor
is at most 0.5 no resize happens, even if the pending insert pushes the
post-insert load factor above 0.5. -/
theorem claim_C1_amended (s : HT) (v : Int) (hs : ReachableHT s) :
    (2 * s.size_ > (s.table_.length : Int) →
      (insert s v).table_.length = 2 * s.table_.length ∧
        totalNodes (resize s.table_) = totalNodes s.table_ ∧
        totalNodes (insert s v).table_ = totalNodes s.table_ + 1) ∧
    (2 * s.size_ ≤ (s.table_.length : Int) →
      (insert s v).table_.length = s.table_.length) := by
  obtain ⟨hlen, hsize, hok⟩ := reachable_good hs
  have hpos : 0 < s.table_.length := by omega
  constructor
  · intro hcond
    have hR : needsResize s = true := by
      rw [needsResize]
      simpa using hcond
    rw [insert, if_pos hR]
    have hrpos : 0 < (resize s.table_).length := by rw [length_resize]; omega
    refine ⟨by simp only [length_pushFront, length_resize], totalNodes_resize s.table_ hpos, ?_⟩
    show totalNodes (pushFront v (resize s.table_)) = totalNodes s.table_ + 1
    rw [totalNodes_pushFront v _ hrpos, totalNodes_resize s.table_ hpos]
  · intro hcond
    have hR : needsResize s = false := by
      rw [needsResize]
      simpa using hcond
    rw [insert, if_neg (by rw [hR]; exact Bool.false_ne_true), length_pushFront]

/-- Witness for the amended C1, exercising both the non-resizing boundary
state (size 5, capacity 10) and, via the first conjunct at a size-6 state,
the resizing case. -/
theorem claim_C1_amended_witness :
    (2 * (runHT 10 [HOp.hins 1, HOp.hins 2, HOp.hins 3, HOp.hins 4, HOp.hins 5, HOp.hins 6]).size_ >
        ((runHT 10 [HOp.hins 1, HOp.hins 2, HOp.hins 3, HOp.hins 4, HOp.hins 5, HOp.hins 6]).table_.length : Int) →
      (insert (runHT 10 [HOp.hins 1, HOp.hins 2, HOp.hins 3, HOp.hins 4, HOp.hins 5, HOp.hins 6]) 7).table_.length =
        2 * (runHT 10 [HOp.hins 1, HOp.hins 2, HOp.hins 3, HOp.hins 4, HOp.hins 5, HOp.hins 6]).table_.length ∧
        totalNodes (resize (runHT 10 [HOp.hins 1, HOp.hins 2, HOp.hins 3, HOp.hins 4, HOp.hins 5, HOp.hins 6]).table_) =
          totalNodes (runHT 10 [HOp.hins 1, HOp.hins 2, HOp.hins 3, HOp.hins 4, HOp.hins 5, HOp.hins 6]).table_ ∧
        totalNodes (insert (runHT 10 [HOp.hins 1, HOp.hins 2, HOp.hins 3, HOp.hins 4, HOp.hins 5, HOp.hins 6]) 7).table_ =
          totalNodes (runHT 10 [HOp.hins 1, HOp.hins 2, HOp.hins 3, HOp.hins 4, HOp.hins 5, HOp.hins 6]).table_ + 1) ∧
    (2 * (runHT 10 [HOp.hins 1, HOp.hins 2, HOp.hins 3, HOp.hins 4, HOp.hins 5, HOp.hins 6]).size_ ≤
        ((runHT 10 [HOp.hins 1, HOp.hins 2, HOp.hins 3, HOp.hins 4, HOp.hins 5, HOp.hins 6]).table_.length : Int) →
      (insert (runHT 10 [HOp.hins 1, HOp.hins 2, HOp.hins 3, HOp.hins 4, HOp.hins 5, HOp.hins 6]) 7).table_.length =
        (runHT 10 [HOp.hins 1, HOp.hins 2, HOp.hins 3, HOp.hins 4, HOp.hins 5, HOp.hins 6]).table_.length) :=
  claim_C1_amended _ 7
    ⟨10, [HOp.hins 1, HOp.hins 2, HOp.hins 3, HOp.hins 4, HOp.hins 5, HOp.hins 6], rfl⟩

end HashTable

namespace AvlTree

open Tree

/- ### Basic facts about heights and the `avl` invariant -/

theorem heightOk_height {t : Tree} (h : heightOk t = true) :
    height_node t = realH t := by
  induction t with
  | leaf => rfl
  | node l v hh r ihl ihr =>
    simp only [heightOk, Bool.and_eq_true, decide_eq_true_eq] at h
    obtain ⟨⟨hl, hr⟩, hc⟩ := h
    show hh = realH (node l v hh r)
    rw [hc, ihl hl, ihr hr]
    rfl

theorem realH_pos_node {t : Tree} (h : 0 < realH t) :
    ∃ a x hh b, t = node a x hh b := by
  cases t with
  | leaf => simp [realH] at h
  | node a x hh b => exact ⟨a, x, hh, b, rfl⟩

theorem avl_node {l : Tree} {v : Int} {hh : Nat} {r : Tree} :
    avl (node l v hh r) = true ↔
      avl l = true ∧ avl r = true ∧ hh = 1 + max (realH l) (realH r) ∧
        ((realH l : Int) - (realH r : Int)).natAbs ≤ 1 := by
  simp only [avl, heightOk, balanced, Bool.and_eq_true, decide_eq_true_eq]
  constructor
  · rintro ⟨⟨⟨hol, hor⟩, hc⟩, ⟨hbal, hbl⟩, hbr⟩
    rw [heightOk_height hol, heightOk_height hor] at hc
    exact ⟨⟨hol, hbl⟩, ⟨hor, hbr⟩, hc, hbal⟩
  · rintro ⟨⟨hol, hbl⟩, ⟨hor, hbr⟩, hc, hbal⟩
    rw [← heightOk_height hol, ← heightOk_height hor] at hc
    exact ⟨⟨⟨hol, hor⟩, hc⟩, ⟨hbal, hbl⟩, hbr⟩

theorem realH_node (l : Tree) (v : Int) (hh : Nat) (r : Tree) :
    realH (node l v hh r) = 1 + max (realH l) (realH r) := rfl

theorem avl_leaf : avl leaf = true := rfl

/- ### Computation lemmas for the rotations -/

theorem right_rotate_reduce (ll : Tree) (lv : Int) (lh : Nat) (lr : Tree)
    (v : Int) (h : Nat) (r : Tree) :
    right_rotate (node (node ll lv lh lr) v h r) =
      node ll lv (1 + max (height_node ll) (1 + max (height_node lr) (height_node r)))
        (node lr v (1 + max (height_node lr) (height_node r)) r) := rfl

theorem left_rotate_reduce (l : Tree) (v : Int) (h : Nat)
    (rl : Tree) (rv : Int) (rh : Nat) (rr : Tree) :
    left_rotate (node l v h (node rl rv rh rr)) =
      node (node l v (1 + max (height_node l) (height_node rl)) rl) rv
        (1 + max (1 + max (height_node l) (height_node rl)) (height_node rr)) rr := rfl

/- ### Guard-selection lemmas for the rebalancing blocks -/

theorem insert_rebalance_id (l : Tree) (v : Int) (h : Nat) (r : Tree) (val : Int)
    (h1 : ¬ get_balance (node l v h r) > 1) (h2 : ¬ get_balance (node l v h r) < -1) :
    insert_rebalance (node l v h r) val = node l v h r := by
  rw [insert_rebalance, if_neg fun hc => h1 hc.1, if_neg fun hc => h2 hc.1,
    if_neg fun hc => h1 hc.1, if_neg fun hc => h2 hc.1]

theorem insert_rebalance_case1 (l : Tree) (v : Int) (h : Nat) (r : Tree) (val : Int)
    (h1 : get_balance (node l v h r) > 1) (h2 : val < rootVal l) :
    insert_rebalance (node l v h r) val = right_rotate (node l v h r) := by
  rw [insert_rebalance, if_pos ⟨h1, h2⟩]

theorem insert_rebalance_case2 (l : Tree) (v : Int) (h : Nat) (r : Tree) (val : Int)
    (h1 : get_balance (node l v h r) < -1) (h2 : rootVal r < val) :
    insert_rebalance (node l v h r) val = left_rotate (node l v h r) := by
  rw [insert_rebalance, if_neg fun hc => absurd h1 (by omega), if_pos ⟨h1, h2⟩]

theorem insert_rebalance_case3 (l : Tree) (v : Int) (h : Nat) (r : Tree) (val : Int)
    (h1 : get_balance (node l v h r) > 1) (h2 : rootVal l < val) :
    insert_rebalance (node l v h r) val =
      right_rotate (node (left_rotate l) v h r) := by
  rw [insert_rebalance, if_neg fun hc => absurd hc.2 (by omega),
    if_neg fun hc => absurd h1 (by omega), if_pos ⟨h1, h2⟩]

theorem insert_rebalance_case4 (l : Tree) (v : Int) (h : Nat) (r : Tree) (val : Int)
    (h1 : get_balance (node l v h r) < -1) (h2 : val < rootVal r) :
    insert_rebalance (node l v h r) val =
      left_rotate (node l v h (right_rotate r)) := by
  rw [insert_rebalance, if_neg fun hc => absurd h1 (by omega),
    if_neg fun hc => absurd hc.2 (by omega),
    if_neg fun hc => absurd h1 (by omega), if_pos ⟨h1, h2⟩]

theorem delete_rebalance_id (l : Tree) (v : Int) (h : Nat) (r : Tree)
    (h1 : ¬ get_balance (node l v h r) > 1) (h2 : ¬ get_balance (node l v h r) < -1) :
    delete_rebalance (node l v h r) = node l v h r := by
  rw [delete_rebalance, if_neg fun hc => h1 hc.1, if_neg fun hc => h2 hc.1,
    if_neg fun hc => h1 hc.1, if_neg fun hc => h2 hc.1]

theorem delete_rebalance_case1 (l : Tree) (v : Int) (h : Nat) (r : Tree)
    (h1 : get_balance (node l v h r) > 1) (h2 : get_balance l ≥ 0) :
    delete_rebalance (node l v h r) = right_rotate (node l v h r) := by
  rw [delete_rebalance, if_pos ⟨h1, h2⟩]

theorem delete_rebalance_case2 (l : Tree) (v : Int) (h : Nat) (r : Tree)
    (h1 : get_balance (node l v h r) < -1) (h2 : get_balance r ≤ 0) :
    delete_rebalance (node l v h r) = left_rotate (node l v h r) := by
  rw [delete_rebalance, if_neg fun hc => absurd h1 (by omega), if_pos ⟨h1, h2⟩]

theorem delete_rebalance_case3 (l : Tree) (v : Int) (h : Nat) (r : Tree)
    (h1 : get_balance (node l v h r) > 1) (h2 : get_balance l < 0) :
    delete_rebalance (node l v h r) = right_rotate (node (left_rotate l) v h r) := by
  rw [delete_rebalance, if_neg fun hc => absurd hc.2 (by omega),
    if_neg fun hc => absurd h1 (by omega), if_pos ⟨h1, h2⟩]

theorem delete_rebalance_case4 (l : Tree) (v : Int) (h : Nat) (r : Tree)
    (h1 : get_balance (node l v h r) < -1) (h2 : get_balance r > 0) :
    delete_rebalance (node l v h r) = left_rotate (node l v h (right_rotate r)) := by
  rw [delete_rebalance, if_neg fun hc => absurd h1 (by omega),
    if_neg fun hc => absurd hc.2 (by omega),
    if_neg fun hc => absurd h1 (by omega), if_pos ⟨h1, h2⟩]

end AvlTree

namespace AvlTree

open Tree

theorem avl_heightOk {t : Tree} (h : avl t = true) : heightOk t = true := by
  rw [avl, Bool.and_eq_true] at h
  exact h.1

theorem avl_balanced {t : Tree} (h : avl t = true) : balanced t = true := by
  rw [avl, Bool.and_eq_true] at h
  exact h.2

theorem avl_hn {t : Tree} (h : avl t = true) : height_node t = realH t :=
  heightOk_height (avl_heightOk h)

theorem update_height_reduce (l : Tree) (v : Int) (h : Nat) (r : Tree) :
    update_height (node l v h r) =
      node l v (1 + max (height_node l) (height_node r)) r := rfl

theorem get_balance_node (l : Tree) (v : Int) (h : Nat) (r : Tree) :
    get_balance (node l v h r) = (height_node l : Int) - (height_node r : Int) := rfl

theorem rootVal_node (l : Tree) (v : Int) (h : Nat) (r : Tree) :
    rootVal (node l v h r) = v := rfl

theorem height_node_node (l : Tree) (v : Int) (h : Nat) (r : Tree) :
    height_node (node l v h r) = h := rfl

/-- The rebalancing block of `insert_node` after an insertion into the left
subtree: `l'` is the already-rebalanced left subtree, `r` the untouched right
subtree. When the node is within AVL bounds nothing happens; when the left
side is two levels higher, the value-comparison guards select the rotation
that restores balance at height `realH r + 2`. -/
theorem insert_rebalance_left (l' : Tree) (v val : Int) (h : Nat) (r : Tree)
    (hl : avl l' = true) (hr : avl r = true)
    (hb1 : -1 ≤ (realH l' : Int) - realH r) (hb2 : (realH l' : Int) - realH r ≤ 2)
    (hgrow : (realH l' : Int) - realH r = 2 →
      val ≠ rootVal l' ∧ (val < rootVal l' → balR l' = 1) ∧
        (rootVal l' < val → balR l' = -1)) :
    avl (insert_rebalance (update_height (node l' v h r)) val) = true ∧
      ((realH l' : Int) - realH r = 2 →
        realH (insert_rebalance (update_height (node l' v h r)) val) = realH r + 2) ∧
      ((realH l' : Int) - realH r ≤ 1 →
        insert_rebalance (update_height (node l' v h r)) val =
          node l' v (1 + max (realH l') (realH r)) r) := by
  rw [update_height_reduce, avl_hn hl, avl_hn hr]
  by_cases hd : (realH l' : Int) - realH r = 2
  · obtain ⟨hne, hlt, hgt⟩ := hgrow hd
    have hl'pos : 0 < realH l' := by omega
    obtain ⟨la, xa, ha, lb, rfl⟩ := realH_pos_node hl'pos
    rw [avl_node] at hl
    obtain ⟨hla, hlb, hha, hbal'⟩ := hl
    simp only [realH_node] at hd hb1 hb2 ⊢
    rw [rootVal_node] at hne hlt hgt
    have hgb : get_balance (node (node la xa ha lb) v
        (1 + max (1 + max (realH la) (realH lb)) (realH r)) r) > 1 := by
      rw [get_balance_node, avl_hn hr, height_node_node, hha]
      omega
    rcases lt_trichotomy val xa with hvx | hvx | hvx
    · have hbal1 : (realH la : Int) - realH lb = 1 := by
        have := hlt hvx
        rwa [balR] at this
      rw [insert_rebalance_case1 _ _ _ _ _ hgb (by rw [rootVal_node]; exact hvx),
        right_rotate_reduce, avl_hn hla, avl_hn hlb, avl_hn hr]
      refine ⟨?_, fun _ => ?_, fun hc => absurd hd (by omega)⟩
      · rw [avl_node]
        refine ⟨hla, ?_, rfl, by simp only [realH_node]; omega⟩
        rw [avl_node]
        exact ⟨hlb, hr, rfl, by omega⟩
      · simp only [realH_node]
        omega
    · exact absurd hvx hne
    · have hbal1 : (realH la : Int) - realH lb = -1 := by
        have := hgt hvx
        rwa [balR] at this
      have hlbpos : 0 < realH lb := by omega
      obtain ⟨b1, y, hy, b2, rfl⟩ := realH_pos_node hlbpos
      rw [avl_node] at hlb
      obtain ⟨hb1', hb2', hhy, hbal2⟩ := hlb
      rw [insert_rebalance_case3 _ _ _ _ _ hgb (by rw [rootVal_node]; exact hvx),
        left_rotate_reduce, right_rotate_reduce]
      simp only [realH_node] at hd hb1 hb2 hbal1 hbal'
      rw [avl_hn hla, avl_hn hb1', avl_hn hb2', avl_hn hr, height_node_node]
      refine ⟨?_, fun _ => ?_, fun hc => ?_⟩
      · rw [avl_node]
        refine ⟨?_, ?_, ?_, ?_⟩
        · rw [avl_node]
          exact ⟨hla, hb1', rfl, by omega⟩
        · rw [avl_node]
          exact ⟨hb2', hr, rfl, by omega⟩
        · simp only [realH_node]
        · simp only [realH_node]
          omega
      · simp only [realH_node]
        omega
      · simp only [realH_node] at hc
        exact absurd hd (by omega)
  · have hid : insert_rebalance (node l' v (1 + max (realH l') (realH r)) r) val =
        node l' v (1 + max (realH l') (realH r)) r := by
      refine insert_rebalance_id _ _ _ _ _ ?_ ?_ <;>
        rw [get_balance_node, avl_hn hl, avl_hn hr] <;> omega
    rw [hid]
    refine ⟨?_, fun hc => absurd hc hd, fun _ => rfl⟩
    rw [avl_node]
    exact ⟨hl, hr, rfl, by omega⟩

end AvlTree

namespace AvlTree

open Tree

/-- Mirror image of `insert_rebalance_left`: the insertion went into the
right subtree `r'`, the left subtree `l` is untouched. -/
theorem insert_rebalance_right (l : Tree) (v val : Int) (h : Nat) (r' : Tree)
    (hl : avl l = true) (hr : avl r' = true)
    (hb1 : -2 ≤ (realH l : Int) - realH r') (hb2 : (realH l : Int) - realH r' ≤ 1)
    (hgrow : (realH l : Int) - realH r' = -2 →
      val ≠ rootVal r' ∧ (rootVal r' < val → balR r' = -1) ∧
        (val < rootVal r' → balR r' = 1)) :
    avl (insert_rebalance (update_height (node l v h r')) val) = true ∧
      ((realH l : Int) - realH r' = -2 →
        realH (insert_rebalance (update_height (node l v h r')) val) = realH l + 2) ∧
      (-1 ≤ (realH l : Int) - realH r' →
        insert_rebalance (update_height (node l v h r')) val =
          node l v (1 + max (realH l) (realH r')) r') := by
  rw [update_height_reduce, avl_hn hl, avl_hn hr]
  by_cases hd : (realH l : Int) - realH r' = -2
  · obtain ⟨hne, hgt, hlt⟩ := hgrow hd
    have hr'pos : 0 < realH r' := by omega
    obtain ⟨ra, ya, ha, rb, rfl⟩ := realH_pos_node hr'pos
    rw [avl_node] at hr
    obtain ⟨hra, hrb, hha, hbal'⟩ := hr
    simp only [realH_node] at hd hb1 hb2 ⊢
    rw [rootVal_node] at hne hlt hgt
    have hgb : get_balance (node l v
        (1 + max (realH l) (1 + max (realH ra) (realH rb))) (node ra ya ha rb)) < -1 := by
      rw [get_balance_node, avl_hn hl, height_node_node, hha]
      omega
    rcases lt_trichotomy val ya with hvx | hvx | hvx
    · have hbal1 : (realH ra : Int) - realH rb = 1 := by
        have := hlt hvx
        rwa [balR] at this
      have hrapos : 0 < realH ra := by omega
      obtain ⟨c, z, hz, d2, rfl⟩ := realH_pos_node hrapos
      rw [avl_node] at hra
      obtain ⟨hc', hd2', hhz, hbal2⟩ := hra
      rw [insert_rebalance_case4 _ _ _ _ _ hgb (by rw [rootVal_node]; exact hvx),
        right_rotate_reduce, left_rotate_reduce]
      simp only [realH_node] at hd hb1 hb2 hbal1
      rw [avl_hn hl, avl_hn hc', avl_hn hd2', avl_hn hrb, height_node_node]
      refine ⟨?_, fun _ => ?_, fun hc => ?_⟩
      · rw [avl_node]
        refine ⟨?_, ?_, ?_, ?_⟩
        · rw [avl_node]
          exact ⟨hl, hc', rfl, by omega⟩
        · rw [avl_node]
          exact ⟨hd2', hrb, rfl, by omega⟩
        · simp only [realH_node]
        · simp only [realH_node]
          omega
      · simp only [realH_node]
        omega
      · simp only [realH_node] at hc
        exact absurd hd (by omega)
    · exact absurd hvx hne
    · have hbal1 : (realH ra : Int) - realH rb = -1 := by
        have := hgt hvx
        rwa [balR] at this
      rw [insert_rebalance_case2 _ _ _ _ _ hgb (by rw [rootVal_node]; exact hvx),
        left_rotate_reduce]
      rw [avl_hn hl, avl_hn hra, avl_hn hrb]
      refine ⟨?_, fun _ => ?_, fun hc => ?_⟩
      · rw [avl_node]
        refine ⟨?_, hrb, ?_, ?_⟩
        · rw [avl_node]
          exact ⟨hl, hra, rfl, by omega⟩
        · simp only [realH_node]
        · simp only [realH_node]
          omega
      · simp only [realH_node]
        omega
      · exact absurd hd (by omega)
  · have hid : insert_rebalance (node l v (1 + max (realH l) (realH r')) r') val =
        node l v (1 + max (realH l) (realH r')) r' := by
      refine insert_rebalance_id _ _ _ _ _ ?_ ?_ <;>
        rw [get_balance_node, avl_hn hl, avl_hn hr] <;> omega
    rw [hid]
    refine ⟨?_, fun hc => absurd hc hd, fun _ => rfl⟩
    rw [avl_node]
    exact ⟨hl, hr, rfl, by omega⟩

end AvlTree

namespace AvlTree

open Tree

theorem insert_node_node (l : Tree) (v : Int) (hh : Nat) (r : Tree) (val : Int) :
    insert_node (node l v hh r) val =
      if val < v then
        insert_rebalance (update_height (node (insert_node l val) v hh r)) val
      else if v < val then
        insert_rebalance (update_height (node l v hh (insert_node r val))) val
      else node l v hh r := rfl

/-- Main inductive lemma for `insert_node`: it preserves the AVL shape
invariant, grows the height by at most one, and when it does grow a node, the
root value is unchanged, differs from the inserted value, and the root
balance tilts toward the side the value went to. -/
theorem insert_avl (t : Tree) (val : Int) (ht : avl t = true) :
    avl (insert_node t val) = true ∧
      (realH (insert_node t val) = realH t ∨ realH (insert_node t val) = realH t + 1) ∧
      (realH (insert_node t val) = realH t + 1 →
        ∀ a x hhx b, t = node a x hhx b →
          rootVal (insert_node t val) = x ∧ val ≠ x ∧
            (val < x → balR (insert_node t val) = 1) ∧
            (x < val → balR (insert_node t val) = -1)) := by
  induction t with
  | leaf =>
    refine ⟨by simp [insert_node, avl, heightOk, balanced, height_node, realH], ?_, ?_⟩
    · right
      rfl
    · intro _ a x hhx b heqt
      cases heqt
  | node l v hh r ihl ihr =>
    rw [avl_node] at ht
    obtain ⟨hla, hra, hcache, hbal⟩ := ht
    rcases lt_trichotomy val v with hv | hv | hv
    · have heq : insert_node (node l v hh r) val =
          insert_rebalance (update_height (node (insert_node l val) v hh r)) val := by
        rw [insert_node_node, if_pos hv]
      obtain ⟨ih1, ih2, ih3⟩ := ihl hla
      have hbound1 : -1 ≤ (realH (insert_node l val) : Int) - realH r := by omega
      have hbound2 : (realH (insert_node l val) : Int) - realH r ≤ 2 := by omega
      have hgrow : (realH (insert_node l val) : Int) - realH r = 2 →
          val ≠ rootVal (insert_node l val) ∧
            (val < rootVal (insert_node l val) → balR (insert_node l val) = 1) ∧
            (rootVal (insert_node l val) < val → balR (insert_node l val) = -1) := by
        intro hd
        have hgl : realH (insert_node l val) = realH l + 1 := by omega
        have hlpos : 0 < realH l := by omega
        obtain ⟨a2, x2, hh2, b2, rfl⟩ := realH_pos_node hlpos
        obtain ⟨hroot, hne, hlt, hgt⟩ := ih3 hgl a2 x2 hh2 b2 rfl
        rw [hroot]
        exact ⟨hne, hlt, hgt⟩
      obtain ⟨c1, c2, c3⟩ :=
        insert_rebalance_left (insert_node l val) v val hh r ih1 hra hbound1 hbound2 hgrow
      rw [heq]
      refine ⟨c1, ?_, ?_⟩
      · by_cases hd : (realH (insert_node l val) : Int) - realH r = 2
        · rw [c2 hd]
          simp only [realH_node]
          omega
        · rw [c3 (by omega)]
          simp only [realH_node]
          omega
      · intro hgrowth a x hhx b heqt
        injection heqt with e1 e2 e3 e4
        subst e1
        subst e2
        subst e3
        subst e4
        by_cases hd : (realH (insert_node l val) : Int) - realH r = 2
        · rw [c2 hd] at hgrowth
          simp only [realH_node] at hgrowth
          exact absurd hgrowth (by omega)
        · rw [c3 (by omega)] at hgrowth ⊢
          simp only [realH_node] at hgrowth
          refine ⟨rfl, by omega, fun _ => ?_, fun hc => absurd hc (by omega)⟩
          rw [balR]
          omega
    · have heq : insert_node (node l v hh r) val = node l v hh r := by
        rw [insert_node_node, if_neg (by omega), if_neg (by omega)]
      rw [heq]
      refine ⟨avl_node.mpr ⟨hla, hra, hcache, hbal⟩, Or.inl rfl, ?_⟩
      intro hgrowth
      exact absurd hgrowth (by omega)
    · have heq : insert_node (node l v hh r) val =
          insert_rebalance (update_height (node l v hh (insert_node r val))) val := by
        rw [insert_node_node, if_neg (by omega), if_pos hv]
      obtain ⟨ih1, ih2, ih3⟩ := ihr hra
      have hbound1 : -2 ≤ (realH l : Int) - realH (insert_node r val) := by omega
      have hbound2 : (realH l : Int) - realH (insert_node r val) ≤ 1 := by omega
      have hgrow : (realH l : Int) - realH (insert_node r val) = -2 →
          val ≠ rootVal (insert_node r val) ∧
            (rootVal (insert_node r val) < val → balR (insert_node r val) = -1) ∧
            (val < rootVal (insert_node r val) → balR (insert_node r val) = 1) := by
        intro hd
        have hgr : realH (insert_node r val) = realH r + 1 := by omega
        have hrpos : 0 < realH r := by omega
        obtain ⟨a2, x2, hh2, b2, rfl⟩ := realH_pos_node hrpos
        obtain ⟨hroot, hne, hlt, hgt⟩ := ih3 hgr a2 x2 hh2 b2 rfl
        rw [hroot]
        exact ⟨hne, hgt, hlt⟩
      obtain ⟨c1, c2, c3⟩ :=
        insert_rebalance_right l v val hh (insert_node r val) hla ih1 hbound1 hbound2 hgrow
      rw [heq]
      refine ⟨c1, ?_, ?_⟩
      · by_cases hd : (realH l : Int) - realH (insert_node r val) = -2
        · rw [c2 hd]
          simp only [realH_node]
          omega
        · rw [c3 (by omega)]
          simp only [realH_node]
          omega
      · intro hgrowth a x hhx b heqt
        injection heqt with e1 e2 e3 e4
        subst e1
        subst e2
        subst e3
        subst e4
        by_cases hd : (realH l : Int) - realH (insert_node r val) = -2
        · rw [c2 hd] at hgrowth
          simp only [realH_node] at hgrowth
          exact absurd hgrowth (by omega)
        · rw [c3 (by omega)] at hgrowth ⊢
          simp only [realH_node] at hgrowth
          refine ⟨rfl, by omega, fun hc => absurd hc (by omega), fun _ => ?_⟩
          rw [balR]
          omega

end AvlTree

namespace AvlTree

open Tree

/-- The rebalancing block of `delete_node` after a deletion in the right
subtree: the left subtree `l` is untouched, the right subtree `r'` may be one
lower than before. Balance is restored; the height shrinks by one only in a
rotation case, i.e. only when the node was left-heavy by two. -/
theorem delete_rebalance_shrinkR (l : Tree) (v : Int) (h : Nat) (r' : Tree)
    (hl : avl l = true) (hr : avl r' = true)
    (hb1 : -1 ≤ (realH l : Int) - realH r') (hb2 : (realH l : Int) - realH r' ≤ 2) :
    avl (delete_rebalance (update_height (node l v h r'))) = true ∧
      (realH (delete_rebalance (update_height (node l v h r'))) =
          1 + max (realH l) (realH r') ∨
        ((realH l : Int) - realH r' = 2 ∧
          realH (delete_rebalance (update_height (node l v h r'))) + 1 =
            1 + max (realH l) (realH r'))) := by
  rw [update_height_reduce, avl_hn hl, avl_hn hr]
  by_cases hd : (realH l : Int) - realH r' = 2
  · have hlpos : 0 < realH l := by omega
    obtain ⟨la, xa, ha, lb, rfl⟩ := realH_pos_node hlpos
    rw [avl_node] at hl
    obtain ⟨hla, hlb, hha, hbal'⟩ := hl
    simp only [realH_node] at hd hb1 hb2 ⊢
    have hgb : get_balance (node (node la xa ha lb) v
        (1 + max (1 + max (realH la) (realH lb)) (realH r')) r') > 1 := by
      rw [get_balance_node, avl_hn hr, height_node_node, hha]
      omega
    have hgbl : get_balance (node la xa ha lb) = (realH la : Int) - realH lb := by
      rw [get_balance_node, avl_hn hla, avl_hn hlb]
    by_cases hbl : (0 : Int) ≤ (realH la : Int) - realH lb
    · rw [delete_rebalance_case1 _ _ _ _ hgb (by rw [hgbl]; omega),
        right_rotate_reduce, avl_hn hla, avl_hn hlb, avl_hn hr]
      constructor
      · rw [avl_node]
        refine ⟨hla, ?_, ?_, ?_⟩
        · rw [avl_node]
          exact ⟨hlb, hr, rfl, by omega⟩
        · simp only [realH_node]
        · simp only [realH_node]
          omega
      · simp only [realH_node]
        omega
    · have hlbpos : 0 < realH lb := by omega
      obtain ⟨b1, y, hy, b2, rfl⟩ := realH_pos_node hlbpos
      rw [avl_node] at hlb
      obtain ⟨hb1', hb2', hhy, hbal2⟩ := hlb
      simp only [realH_node] at hbl
      rw [delete_rebalance_case3 _ _ _ _ hgb (by rw [hgbl]; simp only [realH_node]; omega),
        left_rotate_reduce, right_rotate_reduce]
      simp only [realH_node] at hd hb1 hb2 hbal'
      rw [avl_hn hla, avl_hn hb1', avl_hn hb2', avl_hn hr, height_node_node]
      constructor
      · rw [avl_node]
        refine ⟨?_, ?_, ?_, ?_⟩
        · rw [avl_node]
          exact ⟨hla, hb1', rfl, by omega⟩
        · rw [avl_node]
          exact ⟨hb2', hr, rfl, by omega⟩
        · simp only [realH_node]
        · simp only [realH_node]
          omega
      · simp only [realH_node]
        omega
  · have hid : delete_rebalance (node l v (1 + max (realH l) (realH r')) r') =
        node l v (1 + max (realH l) (realH r')) r' := by
      refine delete_rebalance_id _ _ _ _ ?_ ?_ <;>
        rw [get_balance_node, avl_hn hl, avl_hn hr] <;> omega
    rw [hid]
    constructor
    · rw [avl_node]
      exact ⟨hl, hr, rfl, by omega⟩
    · exact Or.inl rfl

/-- Mirror image of `delete_rebalance_shrinkR`: the deletion went into the
left subtree. -/
theorem delete_rebalance_shrinkL (l' : Tree) (v : Int) (h : Nat) (r : Tree)
    (hl : avl l' = true) (hr : avl r = true)
    (hb1 : -2 ≤ (realH l' : Int) - realH r) (hb2 : (realH l' : Int) - realH r ≤ 1) :
    avl (delete_rebalance (update_height (node l' v h r))) = true ∧
      (realH (delete_rebalance (update_height (node l' v h r))) =
          1 + max (realH l') (realH r) ∨
        ((realH l' : Int) - realH r = -2 ∧
          realH (delete_rebalance (update_height (node l' v h r))) + 1 =
            1 + max (realH l') (realH r))) := by
  rw [update_height_reduce, avl_hn hl, avl_hn hr]
  by_cases hd : (realH l' : Int) - realH r = -2
  · have hrpos : 0 < realH r := by omega
    obtain ⟨ra, ya, ha, rb, rfl⟩ := realH_pos_node hrpos
    rw [avl_node] at hr
    obtain ⟨hra, hrb, hha, hbal'⟩ := hr
    simp only [realH_node] at hd hb1 hb2 ⊢
    have hgb : get_balance (node l' v
        (1 + max (realH l') (1 + max (realH ra) (realH rb))) (node ra ya ha rb)) < -1 := by
      rw [get_balance_node, avl_hn hl, height_node_node, hha]
      omega
    have hgbr : get_balance (node ra ya ha rb) = (realH ra : Int) - realH rb := by
      rw [get_balance_node, avl_hn hra, avl_hn hrb]
    by_cases hbr : (realH ra : Int) - realH rb ≤ 0
    · rw [delete_rebalance_case2 _ _ _ _ hgb (by rw [hgbr]; omega),
        left_rotate_reduce, avl_hn hl, avl_hn hra, avl_hn hrb]
      constructor
      · rw [avl_node]
        refine ⟨?_, hrb, ?_, ?_⟩
        · rw [avl_node]
          exact ⟨hl, hra, rfl, by omega⟩
        · simp only [realH_node]
        · simp only [realH_node]
          omega
      · simp only [realH_node]
        omega
    · have hrapos : 0 < realH ra := by omega
      obtain ⟨c, z, hz, d2, rfl⟩ := realH_pos_node hrapos
      rw [avl_node] at hra
      obtain ⟨hc', hd2', hhz, hbal2⟩ := hra
      simp only [realH_node] at hbr
      rw [delete_rebalance_case4 _ _ _ _ hgb (by rw [hgbr]; simp only [realH_node]; omega),
        right_rotate_reduce, left_rotate_reduce]
      simp only [realH_node] at hd hb1 hb2 hbal'
      rw [avl_hn hl, avl_hn hc', avl_hn hd2', avl_hn hrb, height_node_node]
      constructor
      · rw [avl_node]
        refine ⟨?_, ?_, ?_, ?_⟩
        · rw [avl_node]
          exact ⟨hl, hc', rfl, by omega⟩
        · rw [avl_node]
          exact ⟨hd2', hrb, rfl, by omega⟩
        · simp only [realH_node]
        · simp only [realH_node]
          omega
      · simp only [realH_node]
        omega
  · have hid : delete_rebalance (node l' v (1 + max (realH l') (realH r)) r) =
        node l' v (1 + max (realH l') (realH r)) r := by
      refine delete_rebalance_id _ _ _ _ ?_ ?_ <;>
        rw [get_balance_node, avl_hn hl, avl_hn hr] <;> omega
    rw [hid]
    constructor
    · rw [avl_node]
      exact ⟨hl, hr, rfl, by omega⟩
    · exact Or.inl rfl

end AvlTree

namespace AvlTree

open Tree

theorem delete_node_node (l : Tree) (v : Int) (hh : Nat) (r : Tree) (val : Int) :
    delete_node (node l v hh r) val =
      if val < v then
        delete_rebalance (update_height (node (delete_node l val) v hh r))
      else if v < val then
        delete_rebalance (update_height (node l v hh (delete_node r val)))
      else
        match l, r with
        | leaf, _ => r
        | _, leaf => l
        | _, _ =>
          delete_rebalance (update_height
            (node l (rootVal (find_successor r)) hh
              (delete_node r (rootVal (find_successor r))))) := rfl

/-- Main inductive lemma for `delete_node`: it preserves the AVL shape
invariant and lowers the height by at most one. -/
theorem delete_avl (t : Tree) : ∀ val : Int, avl t = true →
    avl (delete_node t val) = true ∧
      (realH (delete_node t val) = realH t ∨ realH (delete_node t val) + 1 = realH t) := by
  induction t with
  | leaf => exact fun val _ => ⟨avl_leaf, Or.inl rfl⟩
  | node l v hh r ihl ihr =>
    intro val ht
    rw [avl_node] at ht
    obtain ⟨hla, hra, hcache, hbal⟩ := ht
    rcases lt_trichotomy val v with hv | hv | hv
    · have heq : delete_node (node l v hh r) val =
          delete_rebalance (update_height (node (delete_node l val) v hh r)) := by
        rw [delete_node_node, if_pos hv]
      obtain ⟨d1, d2⟩ := ihl val hla
      obtain ⟨c1, c2⟩ := delete_rebalance_shrinkL (delete_node l val) v hh r d1 hra
        (by omega) (by omega)
      rw [heq]
      refine ⟨c1, ?_⟩
      simp only [realH_node]
      rcases c2 with hc | ⟨hcc, hc⟩ <;> omega
    · subst hv
      cases l with
      | leaf =>
        have heq : delete_node (node leaf val hh r) val = r := by
          rw [delete_node_node, if_neg (by omega), if_neg (by omega)]
          cases r <;> rfl
        rw [heq]
        refine ⟨hra, Or.inr ?_⟩
        simp only [realH_node, realH]
        simp only [realH] at hbal
        omega
      | node la xa ha lb =>
        cases r with
        | leaf =>
          have heq : delete_node (node (node la xa ha lb) val hh leaf) val =
              node la xa ha lb := by
            rw [delete_node_node, if_neg (by omega), if_neg (by omega)]
          rw [heq]
          refine ⟨hla, Or.inr ?_⟩
          simp only [realH_node, realH]
          simp only [realH] at hbal
          omega
        | node ra ya ha2 rb =>
          have heq : delete_node (node (node la xa ha lb) val hh (node ra ya ha2 rb)) val =
              delete_rebalance (update_height
                (node (node la xa ha lb)
                  (rootVal (find_successor (node ra ya ha2 rb))) hh
                  (delete_node (node ra ya ha2 rb)
                    (rootVal (find_successor (node ra ya ha2 rb)))))) := by
            rw [delete_node_node, if_neg (by omega), if_neg (by omega)]
          obtain ⟨d1, d2⟩ := ihr (rootVal (find_successor (node ra ya ha2 rb))) hra
          obtain ⟨c1, c2⟩ := delete_rebalance_shrinkR (node la xa ha lb)
            (rootVal (find_successor (node ra ya ha2 rb))) hh
            (delete_node (node ra ya ha2 rb) (rootVal (find_successor (node ra ya ha2 rb))))
            hla d1 (by omega) (by omega)
          rw [heq]
          refine ⟨c1, ?_⟩
          simp only [realH_node] at c2 d2 hbal ⊢
          rcases c2 with hc | ⟨hcc, hc⟩ <;> omega
    · have heq : delete_node (node l v hh r) val =
          delete_rebalance (update_height (node l v hh (delete_node r val))) := by
        rw [delete_node_node, if_neg (by omega), if_pos hv]
      obtain ⟨d1, d2⟩ := ihr val hra
      obtain ⟨c1, c2⟩ := delete_rebalance_shrinkR l v hh (delete_node r val) hla d1
        (by omega) (by omega)
      rw [heq]
      refine ⟨c1, ?_⟩
      simp only [realH_node]
      rcases c2 with hc | ⟨hcc, hc⟩ <;> omega

end AvlTree

namespace AvlTree

open Tree

theorem runTree_avl (ops : List TOp) : avl (runTree ops) = true := by
  rw [runTree]
  have aux : ∀ (l : List TOp) (t : Tree), avl t = true → avl (l.foldl applyTOp t) = true := by
    intro l
    induction l with
    | nil => exact fun t h => h
    | cons o os ih =>
      intro t h
      rw [List.foldl_cons]
      refine ih _ ?_
      cases o with
      | tins v => exact (insert_avl t v h).1
      | tdel v => exact (delete_avl t v h).1
  exact aux ops leaf avl_leaf

theorem reachable_avl {t : Tree} (ht : ReachableTree t) : avl t = true := by
  rcases ht with ⟨ops, rfl⟩
  exact runTree_avl ops

theorem heightOk_heightCorrect {t : Tree} (h : heightOk t = true) :
    heightCorrect t = true := by
  induction t with
  | leaf => rfl
  | node l v hh r ihl ihr =>
    simp only [heightOk, Bool.and_eq_true, decide_eq_true_eq] at h
    obtain ⟨⟨hl, hr⟩, hc⟩ := h
    simp only [heightCorrect, Bool.and_eq_true, decide_eq_true_eq]
    rw [heightOk_height hl, heightOk_height hr] at hc
    exact ⟨⟨ihl hl, ihr hr⟩, hc⟩

/-- Claim C2: every tree state reachable from the empty tree by `insert_node`
and `delete_node` calls satisfies the AVL balance condition
`|height(left) − height(right)| ≤ 1` at every node. -/
theorem claim_C2 (t : Tree) (ht : ReachableTree t) : balanced t = true :=
  avl_balanced (reachable_avl ht)

/-- Witness for C2: the demo sequence of `main` in `avl.c`. -/
theorem claim_C2_witness :
    balanced (runTree [TOp.tins 10, TOp.tins 20, TOp.tins 30, TOp.tins 40,
      TOp.tdel 30]) = true :=
  claim_C2 _ ⟨[TOp.tins 10, TOp.tins 20, TOp.tins 30, TOp.tins 40, TOp.tdel 30], rfl⟩

/-- Claim C5: in every reachable tree state, every node's cached height field
equals `1 + max` of the actual heights of its children (0 for an absent
child). -/
theorem claim_C5 (t : Tree) (ht : ReachableTree t) : heightCorrect t = true :=
  heightOk_heightCorrect (avl_heightOk (reachable_avl ht))

/-- Witness for C5 on the demo sequence with a deletion. -/
theorem claim_C5_witness :
    heightCorrect (runTree [TOp.tins 10, TOp.tins 20, TOp.tins 30, TOp.tins 40,
      TOp.tdel 20]) = true :=
  claim_C5 _ ⟨[TOp.tins 10, TOp.tins 20, TOp.tins 30, TOp.tins 40, TOp.tdel 20], rfl⟩

end AvlTree

namespace AvlTree

open Tree

/- ### Traversals and rotations -/

theorem inorder_update_height (t : Tree) : inorder (update_height t) = inorder t := by
  cases t <;> rfl

theorem inorder_right_rotate (t : Tree) : inorder (right_rotate t) = inorder t := by
  cases t with
  | leaf => rfl
  | node l v h r =>
    cases l with
    | leaf => rfl
    | node ll lv lh lr =>
      simp [right_rotate, update_height, inorder]

theorem inorder_left_rotate (t : Tree) : inorder (left_rotate t) = inorder t := by
  cases t with
  | leaf => rfl
  | node l v h r =>
    cases r with
    | leaf => rfl
    | node rl rv rh rr =>
      simp [left_rotate, update_height, inorder]

theorem inorder_insert_rebalance (t : Tree) (val : Int) :
    inorder (insert_rebalance t val) = inorder t := by
  cases t with
  | leaf => rfl
  | node l v h r =>
    rw [insert_rebalance]
    split_ifs <;>
      simp [inorder, inorder_right_rotate, inorder_left_rotate]

theorem inorder_delete_rebalance (t : Tree) :
    inorder (delete_rebalance t) = inorder t := by
  cases t with
  | leaf => rfl
  | node l v h r =>
    rw [delete_rebalance]
    split_ifs <;>
      simp [inorder, inorder_right_rotate, inorder_left_rotate]

/- ### The list-level counterparts of insert and delete -/

theorem linsert_append_lt (val v : Int) (hv : val < v) (A B : List Int) :
    linsert val (A ++ v :: B) = linsert val A ++ v :: B := by
  induction A with
  | nil => simp [linsert, if_pos hv]
  | cons x A' ih =>
    simp only [List.cons_append, linsert]
    split_ifs <;> simp [ih]

theorem linsert_append_gt (val v : Int) (hv : v < val) (A B : List Int)
    (hA : ∀ a ∈ A, a < val) :
    linsert val (A ++ v :: B) = A ++ v :: linsert val B := by
  induction A with
  | nil => simp [linsert, if_neg (by omega : ¬ val < v), if_pos hv]
  | cons x A' ih =>
    have hx : x < val := hA x (by simp)
    simp only [List.cons_append, linsert, List.append_eq,
      if_neg (by omega : ¬ val < x), if_pos hx]
    rw [ih fun a ha => hA a (by simp [ha])]

theorem linsert_append_self (val : Int) (A B : List Int)
    (hA : ∀ a ∈ A, a < val) :
    linsert val (A ++ val :: B) = A ++ val :: B := by
  induction A with
  | nil => simp [linsert, if_neg (by omega : ¬ val < val)]
  | cons x A' ih =>
    have hx : x < val := hA x (by simp)
    simp only [List.cons_append, linsert, List.append_eq,
      if_neg (by omega : ¬ val < x), if_pos hx]
    rw [ih fun a ha => hA a (by simp [ha])]

theorem ldelete_found (val : Int) (A B : List Int) (hA : ∀ a ∈ A, a ≠ val) :
    ldelete val (A ++ val :: B) = A ++ B := by
  induction A with
  | nil => simp [ldelete]
  | cons x A' ih =>
    have hx : x ≠ val := hA x (by simp)
    simp only [List.cons_append, ldelete, List.append_eq, if_neg hx]
    rw [ih fun a ha => hA a (by simp [ha])]

theorem ldelete_right_absent (val v : Int) (hv : val ≠ v) (A B : List Int)
    (hB : val ∉ B) :
    ldelete val (A ++ v :: B) = ldelete val A ++ v :: B := by
  induction A with
  | nil =>
    simp only [List.nil_append, ldelete, if_neg (Ne.symm hv)]
    have : ldelete val B = B := by
      induction B with
      | nil => rfl
      | cons y B' ihB =>
        have hy : y ≠ val := fun hc => hB (by simp [hc])
        simp only [ldelete, if_neg hy]
        rw [ihB fun hc => hB (by simp [hc])]
    rw [this]
  | cons x A' ih =>
    by_cases hx : x = val
    · simp [List.cons_append, ldelete, if_pos hx]
    · simp only [List.cons_append, ldelete, List.append_eq, if_neg hx]
      rw [ih]

theorem ldelete_left_absent (val v : Int) (hv : val ≠ v) (A B : List Int)
    (hA : ∀ a ∈ A, a ≠ val) :
    ldelete val (A ++ v :: B) = A ++ v :: ldelete val B := by
  induction A with
  | nil => simp [ldelete, if_neg (Ne.symm hv)]
  | cons x A' ih =>
    have hx : x ≠ val := hA x (by simp)
    simp only [List.cons_append, ldelete, List.append_eq, if_neg hx]
    rw [ih fun a ha => hA a (by simp [ha])]

end AvlTree

namespace AvlTree

open Tree

theorem bstB_node {l : Tree} {v : Int} {hh : Nat} {r : Tree} :
    bstB (node l v hh r) = true ↔
      allB (fun x => decide (x < v)) l = true ∧
        allB (fun x => decide (v < x)) r = true ∧
        bstB l = true ∧ bstB r = true := by
  simp [bstB, Bool.and_eq_true, and_assoc]

theorem allB_inorder {p : Int → Bool} {t : Tree} :
    allB p t = true ↔ ∀ x ∈ inorder t, p x = true := by
  induction t with
  | leaf => simp [allB, inorder]
  | node l v hh r ihl ihr =>
    simp only [allB, Bool.and_eq_true, ihl, ihr, inorder, List.mem_append,
      List.mem_cons]
    constructor
    · rintro ⟨⟨hv, hl⟩, hr⟩ x hx
      rcases hx with hx | hx | hx
      · exact hl x hx
      · exact hx ▸ hv
      · exact hr x hx
    · intro h
      exact ⟨⟨h v (Or.inr (Or.inl rfl)), fun x hx => h x (Or.inl hx)⟩,
        fun x hx => h x (Or.inr (Or.inr hx))⟩

theorem inorder_insert (t : Tree) (val : Int) (hb : bstB t = true) :
    inorder (insert_node t val) = linsert val (inorder t) := by
  induction t with
  | leaf => rfl
  | node l v hh r ihl ihr =>
    rw [bstB_node] at hb
    obtain ⟨halll, hallr, hbl, hbr⟩ := hb
    have hAlt : ∀ a ∈ inorder l, a < v := by
      intro a ha
      have := allB_inorder.mp halll a ha
      simpa using this
    rcases lt_trichotomy val v with hv | hv | hv
    · rw [insert_node_node, if_pos hv, inorder_insert_rebalance, inorder_update_height]
      simp only [inorder]
      rw [ihl hbl, linsert_append_lt val v hv]
    · subst hv
      rw [insert_node_node, if_neg (by omega), if_neg (by omega)]
      simp only [inorder]
      rw [linsert_append_self val _ _ hAlt]
    · rw [insert_node_node, if_neg (by omega), if_pos hv, inorder_insert_rebalance,
        inorder_update_height]
      simp only [inorder]
      rw [ihr hbr, linsert_append_gt val v hv _ _
        fun a ha => lt_trans (hAlt a ha) hv]

theorem inorder_succ (t : Tree) (hne : t ≠ leaf) :
    ∃ rest, inorder t = rootVal (find_successor t) :: rest := by
  induction t with
  | leaf => exact absurd rfl hne
  | node l x hh r ihl _ =>
    cases l with
    | leaf => exact ⟨inorder r, rfl⟩
    | node a b c d =>
      obtain ⟨rest, hrest⟩ := ihl (by simp)
      refine ⟨rest ++ x :: inorder r, ?_⟩
      show inorder (node a b c d) ++ x :: inorder r = _
      rw [hrest]
      simp
      rfl

theorem inorder_delete (t : Tree) : ∀ val : Int, bstB t = true →
    inorder (delete_node t val) = ldelete val (inorder t) := by
  induction t with
  | leaf => intro val _; rfl
  | node l v hh r ihl ihr =>
    intro val hb
    rw [bstB_node] at hb
    obtain ⟨halll, hallr, hbl, hbr⟩ := hb
    have hAlt : ∀ a ∈ inorder l, a < v := by
      intro a ha
      have := allB_inorder.mp halll a ha
      simpa using this
    have hBgt : ∀ a ∈ inorder r, v < a := by
      intro a ha
      have := allB_inorder.mp hallr a ha
      simpa using this
    rcases lt_trichotomy val v with hv | hv | hv
    · rw [delete_node_node, if_pos hv, inorder_delete_rebalance, inorder_update_height]
      simp only [inorder]
      rw [ihl val hbl, ldelete_right_absent val v (by omega) _ _
        fun hmem => absurd (hBgt val hmem) (by omega)]
    · subst hv
      cases l with
      | leaf =>
        have heq : delete_node (node leaf val hh r) val = r := by
          rw [delete_node_node, if_neg (by omega), if_neg (by omega)]
          cases r <;> rfl
        rw [heq]
        simp [inorder, ldelete]
      | node la xa ha lb =>
        cases r with
        | leaf =>
          have heq : delete_node (node (node la xa ha lb) val hh leaf) val =
              node la xa ha lb := by
            rw [delete_node_node, if_neg (by omega), if_neg (by omega)]
          rw [heq]
          simp only [inorder]
          rw [ldelete_found val _ _ fun a haa => by have := hAlt a haa; omega]
          simp
        | node ra ya ha2 rb =>
          have heq : delete_node (node (node la xa ha lb) val hh (node ra ya ha2 rb)) val =
              delete_rebalance (update_height
                (node (node la xa ha lb)
                  (rootVal (find_successor (node ra ya ha2 rb))) hh
                  (delete_node (node ra ya ha2 rb)
                    (rootVal (find_successor (node ra ya ha2 rb)))))) := by
            rw [delete_node_node, if_neg (by omega), if_neg (by omega)]
          obtain ⟨rest, hrest⟩ := inorder_succ (node ra ya ha2 rb) (by simp)
          rw [heq, inorder_delete_rebalance, inorder_update_height]
          have hL : inorder (node (node la xa ha lb)
              (rootVal (find_successor (node ra ya ha2 rb))) hh
              (delete_node (node ra ya ha2 rb)
                (rootVal (find_successor (node ra ya ha2 rb))))) =
              inorder (node la xa ha lb) ++
                rootVal (find_successor (node ra ya ha2 rb)) ::
                  inorder (delete_node (node ra ya ha2 rb)
                    (rootVal (find_successor (node ra ya ha2 rb)))) := rfl
          have hR : inorder (node (node la xa ha lb) val hh (node ra ya ha2 rb)) =
              inorder (node la xa ha lb) ++ val :: inorder (node ra ya ha2 rb) := rfl
          rw [hL, hR, ihr _ hbr, hrest, ldelete_found val _ _
            fun a haa => by have := hAlt a haa; omega]
          simp [ldelete]
    · rw [delete_node_node, if_neg (by omega), if_pos hv, inorder_delete_rebalance,
        inorder_update_height]
      simp only [inorder]
      rw [ihr val hbr, ldelete_left_absent val v (by omega) _ _
        fun a haa => by have := hAlt a haa; omega]

end AvlTree

namespace AvlTree

open Tree

/- ### Strict sortedness of the inorder traversal -/

theorem bstB_pairwise (t : Tree) :
    bstB t = true ↔ (inorder t).Pairwise (· < ·) := by
  induction t with
  | leaf => simp [bstB, inorder]
  | node l v hh r ihl ihr =>
    rw [bstB_node]
    simp only [inorder, List.pairwise_append, List.pairwise_cons, ihl, ihr]
    constructor
    · rintro ⟨halll, hallr, hl, hr⟩
      have hA : ∀ a ∈ inorder l, a < v := by
        intro a ha
        have := allB_inorder.mp halll a ha
        simpa using this
      have hB : ∀ b ∈ inorder r, v < b := by
        intro b hb
        have := allB_inorder.mp hallr b hb
        simpa using this
      refine ⟨hl, ⟨hB, hr⟩, ?_⟩
      intro a ha b hb
      rcases List.mem_cons.mp hb with rfl | hb
      · exact hA a ha
      · exact lt_trans (hA a ha) (hB b hb)
    · rintro ⟨hpl, ⟨hvb, hpr⟩, hcross⟩
      refine ⟨?_, ?_, hpl, hpr⟩
      · refine allB_inorder.mpr fun x hx => ?_
        simpa using hcross x hx v (List.mem_cons_self v _)
      · refine allB_inorder.mpr fun x hx => ?_
        simpa using hvb x hx

theorem mem_linsert {y val : Int} {l : List Int} (h : y ∈ linsert val l) :
    y = val ∨ y ∈ l := by
  induction l with
  | nil => simpa [linsert] using h
  | cons x xs ih =>
    rw [linsert] at h
    split_ifs at h with h1 h2
    · rcases List.mem_cons.mp h with rfl | h
      · exact Or.inl rfl
      · exact Or.inr h
    · rcases List.mem_cons.mp h with rfl | h
      · exact Or.inr (List.mem_cons_self _ _)
      · rcases ih h with h | h
        · exact Or.inl h
        · exact Or.inr (List.mem_cons_of_mem _ h)
    · exact Or.inr h

theorem self_mem_linsert (val : Int) (l : List Int) : val ∈ linsert val l := by
  induction l with
  | nil => simp [linsert]
  | cons x xs ih =>
    rw [linsert]
    split_ifs with h1 h2
    · exact List.mem_cons_self _ _
    · exact List.mem_cons_of_mem _ ih
    · have : val = x := by omega
      exact this ▸ List.mem_cons_self _ _

theorem linsert_pairwise {l : List Int} (val : Int)
    (h : l.Pairwise (· < ·)) : (linsert val l).Pairwise (· < ·) := by
  induction l with
  | nil => simp [linsert]
  | cons x xs ih =>
    rw [List.pairwise_cons] at h
    obtain ⟨hx, hxs⟩ := h
    rw [linsert]
    split_ifs with h1 h2
    · rw [List.pairwise_cons]
      refine ⟨?_, List.pairwise_cons.mpr ⟨hx, hxs⟩⟩
      intro b hb
      rcases List.mem_cons.mp hb with rfl | hb
      · exact h1
      · exact lt_trans h1 (hx b hb)
    · rw [List.pairwise_cons]
      refine ⟨?_, ih hxs⟩
      intro b hb
      rcases mem_linsert hb with rfl | hb
      · exact h2
      · exact hx b hb
    · exact List.pairwise_cons.mpr ⟨hx, hxs⟩

theorem ldelete_sublist (val : Int) (l : List Int) :
    (ldelete val l).Sublist l := by
  induction l with
  | nil => simp [ldelete]
  | cons x xs ih =>
    rw [ldelete]
    split_ifs with h1
    · exact List.sublist_cons_self x xs
    · exact List.Sublist.cons₂ x ih

theorem not_mem_ldelete (val : Int) (l : List Int)
    (h : l.Pairwise (· < ·)) : val ∉ ldelete val l := by
  induction l with
  | nil => simp [ldelete]
  | cons x xs ih =>
    rw [List.pairwise_cons] at h
    obtain ⟨hx, hxs⟩ := h
    rw [ldelete]
    split_ifs with h1
    · subst h1
      intro hc
      exact absurd (hx x hc) (lt_irrefl x)
    · intro hc
      rcases List.mem_cons.mp hc with hc | hc
      · exact h1 hc.symm
      · exact ih hxs hc

/- ### Membership agrees across the three traversals -/

theorem mem_preorder {x : Int} {t : Tree} : x ∈ preorder t ↔ x ∈ inorder t := by
  induction t with
  | leaf => simp [preorder, inorder]
  | node l v hh r ihl ihr =>
    simp [preorder, inorder, List.mem_append, List.mem_cons, ihl, ihr]
    tauto

theorem mem_postorder {x : Int} {t : Tree} : x ∈ postorder t ↔ x ∈ inorder t := by
  induction t with
  | leaf => simp [postorder, inorder]
  | node l v hh r ihl ihr =>
    simp [postorder, inorder, List.mem_append, List.mem_cons, ihl, ihr]
    tauto

/- ### The BST invariant holds on all reachable states -/

theorem runTree_bst (ops : List TOp) : bstB (runTree ops) = true := by
  rw [runTree]
  have aux : ∀ (l : List TOp) (t : Tree), bstB t = true →
      bstB (l.foldl applyTOp t) = true := by
    intro l
    induction l with
    | nil => exact fun t h => h
    | cons o os ih =>
      intro t h
      rw [List.foldl_cons]
      refine ih _ ?_
      cases o with
      | tins v =>
        rw [bstB_pairwise]
        show List.Pairwise (· < ·) (inorder (insert_node t v))
        rw [inorder_insert t v h]
        exact linsert_pairwise v ((bstB_pairwise t).mp h)
      | tdel v =>
        rw [bstB_pairwise]
        show List.Pairwise (· < ·) (inorder (delete_node t v))
        rw [inorder_delete t v h]
        exact ((bstB_pairwise t).mp h).sublist (ldelete_sublist v (inorder t))
  exact aux ops leaf rfl

theorem reachable_bst {t : Tree} (ht : ReachableTree t) : bstB t = true := by
  rcases ht with ⟨ops, rfl⟩
  exact runTree_bst ops

/-- Claim C3: every reachable tree state satisfies strict BST ordering — at
every node, all left-subtree values are strictly less than the node's value
and all right-subtree values strictly greater. -/
theorem claim_C3 (t : Tree) (ht : ReachableTree t) : bstB t = true :=
  reachable_bst ht

/-- Witness for C3 on a run with rebalancing rotations and a deletion. -/
theorem claim_C3_witness :
    bstB (runTree [TOp.tins 10, TOp.tins 20, TOp.tins 30, TOp.tins 5,
      TOp.tins 1, TOp.tdel 20]) = true :=
  claim_C3 _ ⟨[TOp.tins 10, TOp.tins 20, TOp.tins 30, TOp.tins 5,
    TOp.tins 1, TOp.tdel 20], rfl⟩

/-- Claim C8: on every reachable state, after `insert_node v` the inorder
traversal yields `v`; and after `delete_node v` no traversal (inorder,
preorder or postorder) yields `v`. -/
theorem claim_C8 (t : Tree) (v : Int) (ht : ReachableTree t) :
    v ∈ inorder (insert_node t v) ∧
      v ∉ inorder (delete_node t v) ∧
      v ∉ preorder (delete_node t v) ∧
      v ∉ postorder (delete_node t v) := by
  have hb := reachable_bst ht
  have hin : v ∉ inorder (delete_node t v) := by
    rw [inorder_delete t v hb]
    exact not_mem_ldelete v (inorder t) ((bstB_pairwise t).mp hb)
  refine ⟨?_, hin, ?_, ?_⟩
  · rw [inorder_insert t v hb]
    exact self_mem_linsert v (inorder t)
  · exact fun hc => hin (mem_preorder.mp hc)
  · exact fun hc => hin (mem_postorder.mp hc)

/-- Witness for C8 with insert and delete on a concrete reachable state. -/
theorem claim_C8_witness :
    7 ∈ inorder (insert_node (runTree [TOp.tins 10, TOp.tins 20, TOp.tins 30]) 7) ∧
      7 ∉ inorder (delete_node (runTree [TOp.tins 10, TOp.tins 20, TOp.tins 30]) 7) ∧
      7 ∉ preorder (delete_node (runTree [TOp.tins 10, TOp.tins 20, TOp.tins 30]) 7) ∧
      7 ∉ postorder (delete_node (runTree [TOp.tins 10, TOp.tins 20, TOp.tins 30]) 7) :=
  claim_C8 _ 7 ⟨[TOp.tins 10, TOp.tins 20, TOp.tins 30], rfl⟩

end AvlTree
